import Mathlib

/-!
Verification of the BitTorrent client core against its specification.

This file shallowly embeds the Rust source of the client and proves or
refutes the specified properties.  Machine integers are modelled as `Nat`
(all quantities involved are `u32`/`usize` values whose arithmetic here
never wraps; where a Rust operation can panic, the embedding returns
`Option`/`Except` with `none`/`.error` standing for the panic).  Bytes are
`Nat` values below 256.  External collaborators (SHA-1, the key-value
store, the file system, the random generator) are parameters of the
embedding, exactly at the interface the source uses them.
-/

namespace BT

/-! ## Wire codec (src/messages/mod.rs, src/messages/payloads.rs) -/

/-- Big-endian `u32::from_be_bytes` on four byte values. -/
def bytesToU32 (b0 b1 b2 b3 : Nat) : Nat :=
  b0 * 2 ^ 24 + b1 * 2 ^ 16 + b2 * 2 ^ 8 + b3

/-- Big-endian `u32::to_be_bytes`. -/
def u32ToBytes (n : Nat) : List Nat :=
  [n / 2 ^ 24 % 256, n / 2 ^ 16 % 256, n / 2 ^ 8 % 256, n % 256]

/-- Payload of a HAVE message (`HavePayload`). -/
structure HavePayload where
  piece_index : Nat
deriving DecidableEq, Repr

/-- Payload of a REQUEST or CANCEL message (`RequestPiecePayload`). -/
structure RequestPiecePayload where
  index : Nat
  begin : Nat
  length : Nat
deriving DecidableEq, Repr

/-- Payload of a PIECE message (`ResponsePiecePayload`). -/
structure ResponsePiecePayload where
  index : Nat
  begin : Nat
  block : List Nat
deriving DecidableEq, Repr

/-- Payload of a BITFIELD message (`BitfieldPayload`). -/
structure BitfieldPayload where
  pieces_available : List Bool
deriving DecidableEq, Repr

/-- HavePayload.from_be_bytes: reads `payload[0..4]`; the slice itself
panics when fewer than 4 bytes are present (`none` models the panic);
extra bytes are ignored. -/
def HavePayload.from_be_bytes (payload : List Nat) : Option HavePayload :=
  if payload.length < 4 then none
  else some ⟨bytesToU32 (payload.getD 0 0) (payload.getD 1 0) (payload.getD 2 0)
      (payload.getD 3 0)⟩

/-- HavePayload.to_be_bytes. -/
def HavePayload.to_be_bytes (p : HavePayload) : List Nat :=
  u32ToBytes p.piece_index

/-- RequestPiecePayload.from_be_bytes: bincode legacy big-endian decode of
three `u32`s; `unwrap` panics (`none`) when fewer than 12 bytes are
present. -/
def RequestPiecePayload.from_be_bytes (payload : List Nat) : Option RequestPiecePayload :=
  if payload.length < 12 then none
  else some
    { index := bytesToU32 (payload.getD 0 0) (payload.getD 1 0) (payload.getD 2 0)
        (payload.getD 3 0)
      begin := bytesToU32 (payload.getD 4 0) (payload.getD 5 0) (payload.getD 6 0)
        (payload.getD 7 0)
      length := bytesToU32 (payload.getD 8 0) (payload.getD 9 0) (payload.getD 10 0)
        (payload.getD 11 0) }

/-- RequestPiecePayload.to_be_bytes: 12 bytes, three big-endian `u32`s. -/
def RequestPiecePayload.to_be_bytes (p : RequestPiecePayload) : List Nat :=
  u32ToBytes p.index ++ u32ToBytes p.begin ++ u32ToBytes p.length

/-- ResponsePiecePayload.from_be_bytes: computes `bytes.len() - 8`, which
underflows (panics, modelled `none`) when fewer than 8 bytes are present;
otherwise index and begin are the first two big-endian `u32`s and the
block is the remainder. -/
def ResponsePiecePayload.from_be_bytes (bytes : List Nat) : Option ResponsePiecePayload :=
  if bytes.length < 8 then none
  else some
    { index := bytesToU32 (bytes.getD 0 0) (bytes.getD 1 0) (bytes.getD 2 0) (bytes.getD 3 0)
      begin := bytesToU32 (bytes.getD 4 0) (bytes.getD 5 0) (bytes.getD 6 0) (bytes.getD 7 0)
      block := bytes.drop 8 }

/-- ResponsePiecePayload.to_be_bytes. -/
def ResponsePiecePayload.to_be_bytes (p : ResponsePiecePayload) : List Nat :=
  u32ToBytes p.index ++ u32ToBytes p.begin ++ p.block

/-- One byte of the bitfield decoding: bit `i` of the byte (MSB first),
`1u8.rotate_right(i + 1) & byte != 0`. -/
def byteToBits (b : Nat) : List Bool :=
  (List.range 8).map fun i => (128 >>> i) &&& b != 0

/-- BitfieldPayload.from_be_bytes: a vector of `8 * bytes` booleans, MSB of
byte 0 first. -/
def BitfieldPayload.from_be_bytes (payload : List Nat) : BitfieldPayload :=
  ⟨payload.flatMap byteToBits⟩

/-- One byte of the bitfield encoding: fold of `acc | (128 >> i)` over the
chunk. -/
def bitsToByte (chunk : List Bool) : Nat :=
  (chunk.enum).foldl (fun acc x => acc ||| (if x.2 then 128 >>> x.1 else 0)) 0

/-- BitfieldPayload.to_be_bytes: chunks of 8 booleans, MSB first, the last
chunk implicitly zero-padded. -/
def BitfieldPayload.to_be_bytes (p : BitfieldPayload) : List Nat :=
  (p.pieces_available.toChunks 8).map bitsToByte

/-- MessageAll: every wire message variant (the empty variants carry
`NoPayload` in the source). -/
inductive MessageAll where
  | choke
  | unchoke
  | interested
  | notInterested
  | have (p : HavePayload)
  | bitfield (p : BitfieldPayload)
  | request (p : RequestPiecePayload)
  | piece (p : ResponsePiecePayload)
  | cancel (p : RequestPiecePayload)
  | keepAlive
deriving DecidableEq, Repr

/-- MessageAll.to_be_bytes: the payload bytes, without length and id. -/
def MessageAll.to_be_bytes : MessageAll → List Nat
  | .choke => []
  | .unchoke => []
  | .interested => []
  | .notInterested => []
  | .have p => p.to_be_bytes
  | .bitfield p => p.to_be_bytes
  | .request p => p.to_be_bytes
  | .piece p => p.to_be_bytes
  | .cancel p => p.to_be_bytes
  | .keepAlive => []

/-- Message: a frame with its `length` field (the wire length value)
and payload. -/
structure Message where
  length : Nat
  payload : MessageAll
deriving DecidableEq, Repr

/-- Message::new. The source computes
`length = payload.to_be_bytes().len() as u32 + 4`. -/
def Message.new (payload : MessageAll) : Message :=
  { length := payload.to_be_bytes.length + 4, payload }

/-- Message::get_msg_type, as the numeric wire id; `none` for keep-alive. -/
def Message.msgTypeId : MessageAll → Option Nat
  | .choke => some 0
  | .unchoke => some 1
  | .interested => some 2
  | .notInterested => some 3
  | .have _ => some 4
  | .bitfield _ => some 5
  | .request _ => some 6
  | .piece _ => some 7
  | .cancel _ => some 8
  | .keepAlive => none

/-- MAX frame size of the framer, 8 MiB. -/
def MAX : Nat := 8 * 1024 * 1024

/-- Result of `MessageFramer::decode` on a buffer: `tooLarge` is the
`FrameTooLarge` error, `payloadPanic` a panic inside a payload decoder,
`incomplete` is `Ok(None)` with the buffer untouched, `skipped` is the
`Ok(None)` of an unknown message id (the frame already consumed), and
`message` is `Ok(Some(msg))` together with the unconsumed remainder. -/
inductive DecodeResult where
  | tooLarge
  | payloadPanic
  | incomplete
  | skipped (rest : List Nat)
  | message (m : Message) (rest : List Nat)
deriving DecidableEq, Repr

/-- MessageFramer::decode. -/
def MessageFramer.decode (src : List Nat) : DecodeResult :=
  if src.length < 4 then .incomplete
  else
    let data_length := bytesToU32 (src.getD 0 0) (src.getD 1 0) (src.getD 2 0) (src.getD 3 0)
    if data_length == 0 then .message ⟨0, .keepAlive⟩ (src.drop 4)
    else if src.length < 5 then .incomplete
    else if data_length > MAX then .tooLarge
    else if src.length < 4 + data_length then .incomplete
    else
      let data := if data_length > 1 then (src.drop 5).take (data_length - 1) else []
      let msg_type := src.getD 4 0
      let rest := src.drop (4 + data_length)
      let payload : Option MessageAll :=
        if msg_type == 0 then some .choke
        else if msg_type == 1 then some .unchoke
        else if msg_type == 2 then some .interested
        else if msg_type == 3 then some .notInterested
        else if msg_type == 4 then (HavePayload.from_be_bytes data).map .have
        else if msg_type == 5 then some (.bitfield (BitfieldPayload.from_be_bytes data))
        else if msg_type == 6 then (RequestPiecePayload.from_be_bytes data).map .request
        else if msg_type == 7 then (ResponsePiecePayload.from_be_bytes data).map .piece
        else if msg_type == 8 then (RequestPiecePayload.from_be_bytes data).map .cancel
        else none
      if msg_type ≤ 8 then
        match payload with
        | some p => .message ⟨data_length, p⟩ rest
        | none => .payloadPanic
      else .skipped rest

/-- MessageFramer::encode: `none` is the `FrameTooLarge` error; a
keep-alive writes nothing; otherwise the frame is the `length` field,
the id byte and the payload bytes. -/
def MessageFramer.encode (item : Message) : Option (List Nat) :=
  if item.length > MAX then none
  else
    match Message.msgTypeId item.payload with
    | none => some []
    | some id => some (u32ToBytes item.length ++ [id] ++ item.payload.to_be_bytes)

/-! ## Data model of the piece manager
(src/peer_manager/mod.rs, src/core/torrent.rs) -/

/-- BLOCK_MAX, the 16-KiB block size (`1 << 14` in lib). -/
def BLOCK_MAX : Nat := 1 <<< 14

/-- MAX_PIECES_IN_PARALLEL: bound on the download queue. -/
def MAX_PIECES_IN_PARALLEL : Nat := 5

/-- BlockState of one block of a piece. -/
inductive BlockState where
  | Finished
  | InProcess
  | None
deriving DecidableEq, Repr

/-- BlockState::is_finished. -/
def BlockState.is_finished (b : BlockState) : Bool := b == .Finished

/-- BlockState::is_none. -/
def BlockState.is_none (b : BlockState) : Bool := b == .None

/-- PieceState: per-piece block accounting and buffer. -/
structure PieceState where
  blocks : List BlockState
  piece_i : Nat
  buf : List Nat
deriving DecidableEq, Repr

/-- Metainfo, restricted to the attributes the piece manager reads:
`piece_length`, the list of 20-byte piece hashes, and the single-file
`length` (`get_length`). Hashes are byte lists. -/
structure Metainfo where
  piece_length : Nat
  pieces : List (List Nat)
  length : Nat
deriving DecidableEq, Repr

/-- Metainfo::get_length (single-file case). -/
def Metainfo.get_length (mi : Metainfo) : Nat := mi.length

/-! ## Request preparation
(src/peer_manager/piece_manager/req_preparer.rs) -/

/-- get_piece_size: the last piece gets `length % piece_length` when that
is nonzero, every other piece gets `piece_length`. -/
def get_piece_size (torrent_info : Metainfo) (piece_i : Nat) : Nat :=
  let length := torrent_info.get_length
  let piece_length := torrent_info.piece_length
  if piece_i == torrent_info.pieces.length - 1 && length % piece_length != 0 then
    length % piece_length
  else
    piece_length

/-- u32::div_ceil, as the source computes it. -/
def div_ceil (a b : Nat) : Nat := a / b + if a % b == 0 then 0 else 1

/-- get_block_len: the final block of a piece whose size is not a multiple
of BLOCK_MAX gets the remainder, every other block gets BLOCK_MAX. -/
def get_block_len (n_blocks piece_size block_i : Nat) : Nat :=
  if block_i == n_blocks - 1 && piece_size % BLOCK_MAX != 0 then
    piece_size % BLOCK_MAX
  else
    BLOCK_MAX

/-- PieceState::new: `ceil(piece_size / BLOCK_MAX)` blocks, all `None`,
and a zeroed buffer of `piece_size` bytes. -/
def PieceState.new (torrent_info : Metainfo) (piece_i : Nat) : PieceState :=
  let piece_size := get_piece_size torrent_info piece_i
  let n_blocks := div_ceil piece_size BLOCK_MAX
  { blocks := List.replicate n_blocks .None
    piece_i := piece_i
    buf := List.replicate piece_size 0 }

/-- Candidate pieces of DownloadQueue::add_piece_to_queue: indices of the
zip of `i_have` and `peer_has` where we lack the piece and the peer has
it. -/
def pieceCandidates (i_have peer_has : List Bool) : List Nat :=
  ((i_have.zip peer_has).enum.filterMap fun x =>
    if !x.2.1 && x.2.2 then some x.1 else none)

/-- DownloadQueue::add_piece_to_queue. The random `choose` over the
candidate iterator is a parameter `pick` (the caller supplies a function
that picks an element of a list, `none` exactly on the empty list).
Returns whether a piece was added, and the new queue. Note the guard:
the queue being full only blocks the insertion when we have more than
one piece, and membership of the candidate in the queue is not
checked. -/
def DownloadQueue.add_piece_to_queue (pick : List Nat → Option Nat)
    (q : List PieceState) (i_have peer_has : List Bool) (metainfo : Metainfo) :
    Bool × List PieceState :=
  if q.length == MAX_PIECES_IN_PARALLEL && (i_have.count true) > 1 then
    (false, q)
  else
    match pick (pieceCandidates i_have peer_has) with
    | none => (false, q)
    | some piece_i => (true, q ++ [PieceState.new metainfo piece_i])

/-- DownloadQueue::get_queue_for_peer: position of a queued piece the peer
has with at least one `None` block; otherwise try to add a piece and use
the last position. Returns the index into the (possibly extended) queue.
The source indexes `peer_has[state.piece_i]`, modelled with `getD false`
(theorems about this function keep the index in range). -/
def DownloadQueue.get_queue_for_peer (pick : List Nat → Option Nat)
    (q : List PieceState) (i_have peer_has : List Bool) (metainfo : Metainfo) :
    Option (Nat × List PieceState) :=
  let pos := q.findIdx? fun state =>
    peer_has.getD state.piece_i false && state.blocks.any BlockState.is_none
  match pos with
  | some i => some (i, q)
  | none =>
    let res := DownloadQueue.add_piece_to_queue pick q i_have peer_has metainfo
    if res.1 then some (res.2.length - 1, res.2) else none

/-- PieceManager::prepare_next_blocks, acting on the download queue: marks
up to `n` `None` blocks of the selected piece as `InProcess` and returns
the corresponding requests. `blocks.capacity()` and `buf.capacity()` of
the source equal the respective lengths (`vec![x; n]` allocates
exactly). -/
def PieceManager.prepare_next_blocks (pick : List Nat → Option Nat) (n : Nat)
    (haveBf : List Bool) (q : List PieceState) (peer_has : List Bool)
    (metainfo : Metainfo) : List RequestPiecePayload × List PieceState :=
  match DownloadQueue.get_queue_for_peer pick q haveBf peer_has metainfo with
  | none => ([], q)
  | some (idx, q2) =>
    match q2.get? idx with
    | none => ([], q2)
    | some piece =>
      let n_blocks := piece.blocks.length
      let piece_size := piece.buf.length
      let noneIdxs := ((piece.blocks.enum.filter fun x => x.2.is_none).map Prod.fst).take n
      let reqs := noneIdxs.map fun block_i =>
        RequestPiecePayload.mk piece.piece_i (block_i * BLOCK_MAX)
          (get_block_len n_blocks piece_size block_i)
      let blocks2 := noneIdxs.foldl (fun bs k => bs.set k .InProcess) piece.blocks
      (reqs, q2.set idx { piece with blocks := blocks2 })

/-! ## Piece commit
(src/peer_manager/piece_manager/file_manager.rs) -/

/-- Overwrite of `l[start..start + xs.length]` by `xs`
(`copy_from_slice`); callers check the range. -/
def listSetSlice (l : List Nat) (start : Nat) (xs : List Nat) : List Nat :=
  l.take start ++ xs ++ l.drop (start + xs.length)

/-- PieceState::update_state: copies the block into the buffer at
`begin` and marks block `begin / BLOCK_MAX` as `Finished`. `none` models
the slice panic respectively the `assert!(block_i < blocks.len())`. -/
def PieceState.update_state (ps : PieceState) (block : ResponsePiecePayload) :
    Option PieceState :=
  let block_end := block.begin + block.block.length
  if block_end > ps.buf.length then none
  else
    let buf := listSetSlice ps.buf block.begin block.block
    let block_i := block.begin / BLOCK_MAX
    if block_i < ps.blocks.length then
      some { ps with buf := buf, blocks := ps.blocks.set block_i .Finished }
    else none

/-- Vec::swap_remove: replace position `i` by the final element and pop. -/
def swapRemove (l : List PieceState) (i : Nat) : List PieceState :=
  match l.getLast? with
  | Option.none => l
  | some last => (l.set i last).dropLast

/-- DownloadQueue::update_piece_state: find the queue entry for the
block's piece (absent blocks are ignored), integrate the block, and when
every block is finished swap-remove and return the entry. -/
def DownloadQueue.update_piece_state (q : List PieceState)
    (block : ResponsePiecePayload) :
    Option (Option PieceState × List PieceState) :=
  match q.findIdx? (fun s => s.piece_i == block.index) with
  | Option.none => some (Option.none, q)
  | some queue_i =>
    match q.get? queue_i with
    | Option.none => Option.none
    | some ps =>
      match ps.update_state block with
      | Option.none => Option.none
      | some ps2 =>
        let q2 := q.set queue_i ps2
        if ps2.blocks.all BlockState.is_finished then
          some (some ps2, swapRemove q2 queue_i)
        else
          some (Option.none, q2)

/-- Environment of the piece commit: whether the positioned file write
and the DB bitfield update succeed, and the SHA-1 function (an external
crate, abstracted). -/
structure CommitEnv where
  fileOk : Bool
  dbOk : Bool
  sha1 : List Nat → List Nat

/-- PieceManager, projected to the state the commit path touches: the
in-memory bitfield (`have` in the source), the download queue, the log of
positioned file writes `(offset, bytes)`, and the log of persisted
bitfields (`db_conn.update_bitfields`). -/
structure PieceManager where
  haveBf : List Bool
  download_queue : List PieceState
  fileWrites : List (Nat × List Nat)
  dbBitfields : List (List Bool)
deriving DecidableEq, Repr

/-- PieceState::check_hash: SHA-1 of the buffer against
`pieces[piece_i]`; `none` models the index panic. -/
def PieceState.check_hash (env : CommitEnv) (ps : PieceState) (torrent_info : Metainfo) :
    Option Bool :=
  (torrent_info.pieces.get? ps.piece_i).map fun h => env.sha1 ps.buf == h

/-- PieceManager::write_piece_to_file: one positioned write of the buffer
at `piece_i * piece_length`; the Bool is success. -/
def PieceManager.write_piece_to_file (env : CommitEnv) (pm : PieceManager)
    (piece_state : PieceState) (metainfo : Metainfo) : PieceManager × Bool :=
  if env.fileOk then
    ({ pm with fileWrites :=
        pm.fileWrites ++ [(piece_state.piece_i * metainfo.piece_length, piece_state.buf)] },
      true)
  else (pm, false)

/-- PieceManager::handle_piece: hash mismatch returns `Ok(())` at once;
otherwise write the file, compute the new bitfield, update the DB, and
only then the in-memory bitfield (source comment: if the DB fails, the
struct is still in the old state). The Bool is `Ok` versus `Err`; `none`
models the bitfield index panic. -/
def PieceManager.handle_piece (env : CommitEnv) (pm : PieceManager)
    (piece_state : PieceState) (metainfo : Metainfo) :
    Option (PieceManager × Bool) :=
  match piece_state.check_hash env metainfo with
  | Option.none => Option.none
  | some hashs_match =>
    if !hashs_match then some (pm, true)
    else
      let res := pm.write_piece_to_file env piece_state metainfo
      if !res.2 then some (res.1, false)
      else
        let pm2 := res.1
        if piece_state.piece_i < pm2.haveBf.length then
          let new_bitfield := pm2.haveBf.set piece_state.piece_i true
          if env.dbOk then
            some ({ pm2 with
                      dbBitfields := pm2.dbBitfields ++ [new_bitfield]
                      haveBf := new_bitfield }, true)
          else some (pm2, false)
        else Option.none

/-- PieceManager::write_block: integrate the block; when it completes its
piece, run handle_piece on the (already removed) entry; `.ok (some i)`
reports the piece as finished, `.error ()` the propagated error. -/
def PieceManager.write_block (env : CommitEnv) (pm : PieceManager)
    (block : ResponsePiecePayload) (metainfo : Metainfo) :
    Option (PieceManager × Except Unit (Option Nat)) :=
  match DownloadQueue.update_piece_state pm.download_queue block with
  | Option.none => Option.none
  | some (removed, q2) =>
    let pm2 := { pm with download_queue := q2 }
    match removed with
    | Option.none => some (pm2, .ok Option.none)
    | some piece_state =>
      match pm2.handle_piece env piece_state metainfo with
      | Option.none => Option.none
      | some (pm3, ok) =>
        if ok then some (pm3, .ok (some piece_state.piece_i))
        else some (pm3, .error ())

/-! ## Piece selector
(src/peer_manager/piece_manager/piece_selector.rs) -/

/-- PieceSelector: rarity vector, lazy priority heap of `(rarity, piece)`
entries (the `BinaryHeap` is modelled as the multiset of its entries; pop
returns a minimal one), our bitfield (`have`), per-peer bitfields (the
`HashMap` as an association list with distinct keys), and the in-flight
bitfield. -/
structure PieceSelector where
  piece_rarity : List Nat
  priority_queue : List (Nat × Nat)
  haveBf : List Bool
  peer_bitfields : List (Nat × List Bool)
  pieces_in_flight : List Bool
deriving DecidableEq, Repr

/-- PieceSelector::new. -/
def PieceSelector.new (haveBf : List Bool) : PieceSelector :=
  { piece_rarity := List.replicate haveBf.length 0
    priority_queue := []
    haveBf := haveBf
    peer_bitfields := []
    pieces_in_flight := List.replicate haveBf.length false }

/-- Replacement of the value at a key of the association list (the key is
present exactly once in well-formed states). -/
def alReplace (id : Nat) (v : List Bool) (l : List (Nat × List Bool)) :
    List (Nat × List Bool) :=
  l.map fun p => if p.1 == id then (id, v) else p

/-- PieceSelector::add_peer: insert an empty bitfield, keeping the old one
when the peer is already present. -/
def PieceSelector.add_peer (s : PieceSelector) (id : Nat) : PieceSelector :=
  if (s.peer_bitfields.lookup id).isSome then s
  else { s with peer_bitfields := (id, []) :: s.peer_bitfields }

/-- Rarity part of PieceSelector::update_prio_queue: the zip of the rarity
vector with the peer bitfield and our bitfield, adjusting (increment, or
saturating decrement) wherever the peer has the piece and we lack it; the
iteration stops at the shortest of the three lists. -/
def upqRarity (increase : Bool) : List Nat → List Bool → List Bool → List Nat
  | c :: cs, b_p :: bps, b_i :: bis =>
    (if b_p && !b_i then (if increase then c + 1 else c - 1) else c)
      :: upqRarity increase cs bps bis
  | cs, _, _ => cs

/-- Heap pushes of PieceSelector::update_prio_queue: each adjusted index
is pushed with its new count. -/
def upqPushes (increase : Bool) (i : Nat) :
    List Nat → List Bool → List Bool → List (Nat × Nat)
  | c :: cs, b_p :: bps, b_i :: bis =>
    (if b_p && !b_i then [((if increase then c + 1 else c - 1), i)] else [])
      ++ upqPushes increase (i + 1) cs bps bis
  | _, _, _ => []

/-- PieceSelector::update_prio_queue. -/
def PieceSelector.update_prio_queue (s : PieceSelector) (bitfield : List Bool)
    (increase : Bool) : PieceSelector :=
  { s with
      piece_rarity := upqRarity increase s.piece_rarity bitfield s.haveBf
      priority_queue := s.priority_queue
        ++ upqPushes increase 0 s.piece_rarity bitfield s.haveBf }

/-- PieceSelector::remove_peer: drop the entry and decrement the rarity of
every piece the peer had (heap entries stay, to be rejected lazily). -/
def PieceSelector.remove_peer (s : PieceSelector) (id : Nat) : PieceSelector :=
  match s.peer_bitfields.lookup id with
  | Option.none => s
  | some bitfield =>
    PieceSelector.update_prio_queue
      { s with peer_bitfields := s.peer_bitfields.filter (fun p => p.1 != id) }
      bitfield false

/-- PieceSelector::add_bitfield: record the bitfield (only for an already
added peer) and increment rarities. -/
def PieceSelector.add_bitfield (s : PieceSelector) (id : Nat)
    (bitfield : List Bool) : PieceSelector :=
  if (s.peer_bitfields.lookup id).isSome then
    PieceSelector.update_prio_queue
      { s with peer_bitfields := alReplace id bitfield s.peer_bitfields }
      bitfield true
  else s

/-- PieceSelector::update_have: when the peer is known and both its
bitfield and the rarity vector cover the index, set the peer's bit and
unconditionally increment the rarity; push to the heap only when we lack
the piece. -/
def PieceSelector.update_have (s : PieceSelector) (id : Nat) (have_index : Nat) :
    PieceSelector :=
  match s.peer_bitfields.lookup id with
  | Option.none => s
  | some peer_bitfield =>
    if have_index < peer_bitfield.length && have_index < s.piece_rarity.length then
      let bf2 := peer_bitfield.set have_index true
      let rarity2 := s.piece_rarity.set have_index
        (s.piece_rarity.getD have_index 0 + 1)
      let s2 := { s with
        peer_bitfields := alReplace id bf2 s.peer_bitfields
        piece_rarity := rarity2 }
      if !(s.haveBf.getD have_index false) then
        { s2 with priority_queue :=
            s2.priority_queue ++ [(rarity2.getD have_index 0, have_index)] }
      else s2
    else s

/-- Comparison on heap entries: the lexicographic order on `(rarity,
piece_index)` pairs, which `Reverse` turns into a min-heap. -/
def pairLe (a b : Nat × Nat) : Bool :=
  a.1 < b.1 || (a.1 == b.1 && a.2 ≤ b.2)

/-- BinaryHeap::pop on the entry multiset: a minimal entry and the
remainder; `none` on the empty heap. -/
def popMin : List (Nat × Nat) → Option ((Nat × Nat) × List (Nat × Nat))
  | [] => Option.none
  | x :: xs =>
    match popMin xs with
    | Option.none => some (x, [])
    | some (m, rest) => if pairLe x m then some (x, xs) else some (m, x :: rest)

/-- Capacity growth of a Vec push (amortized doubling); only the Vec
invariant `length ≤ capacity` matters to the selector loop. -/
def growCap (cap newLen : Nat) : Nat :=
  if newLen ≤ cap then cap else max (2 * cap) (max newLen 4)

/-- The accept condition of the selector loop, the source's
`self.piece_rarity[piece_i as usize] == count && bitfield[piece_i as usize]
&& !self.pieces_in_flight[piece_i as usize]` with Rust semantics made
explicit: each `[...]` indexing panics when the index is out of range
(modelled as `Option.none`), and `&&` short-circuits, so `piece_rarity[i]`
is always evaluated on a pop, `bitfield[i]` only when the rarity matched,
and `pieces_in_flight[i]` only when the peer also has the piece.
`some true` means the entry is accepted, `some false` rejected. -/
def selAccept (rarity : List Nat) (bitfield : List Bool) (flight : List Bool)
    (r i : Nat) : Option Bool :=
  (rarity[i]?).bind fun r0 =>
    if r0 == r then
      (bitfield[i]?).bind fun b =>
        if b then (flight[i]?).map (fun f => !f)
        else some false
    else some false

/-- The loop of PieceSelector::select_pieces_for_peer, with a fuel
parameter bounding the number of iterations (each iteration pops one heap
entry, so the initial heap size is enough fuel). The guard is the source's
`queue.len() <= queue.capacity()`; each pop is tested by `selAccept`,
whose panic (`none`) aborts the whole loop; an accepted entry is appended
and marked in flight; rejected pops are dropped, not reinserted. Returns
the final accepted list, capacity, heap, and in-flight vector, or `none`
for a panic. -/
def selLoopFuel (rarity : List Nat) (bitfield : List Bool) :
    Nat → List Nat → Nat → List (Nat × Nat) → List Bool →
    Option (List Nat × Nat × List (Nat × Nat) × List Bool)
  | 0, queue, cap, heap, flight => some (queue, cap, heap, flight)
  | fuel + 1, queue, cap, heap, flight =>
    if queue.length ≤ cap then
      match popMin heap with
      | Option.none => some (queue, cap, heap, flight)
      | some ((r, i), heap2) =>
        match selAccept rarity bitfield flight r i with
        | Option.none => Option.none
        | some true =>
          selLoopFuel rarity bitfield fuel (queue ++ [i]) (growCap cap (queue.length + 1))
            heap2 (flight.set i true)
        | some false =>
          selLoopFuel rarity bitfield fuel queue cap heap2 flight
    else some (queue, cap, heap, flight)

/-- The selector loop, started with enough fuel to drain the heap. -/
def selLoop (rarity : List Nat) (bitfield : List Bool) (queue : List Nat)
    (cap : Nat) (heap : List (Nat × Nat)) (flight : List Bool) :
    Option (List Nat × Nat × List (Nat × Nat) × List Bool) :=
  selLoopFuel rarity bitfield heap.length queue cap heap flight

/-- PieceSelector::select_pieces_for_peer: the outer `Option.none` is a
panic of the loop's indexing. Otherwise: `none` for an unknown peer;
for a known one, run the loop on the heap with a vector allocated at
capacity `count`, record the final heap and in-flight vector, and return
`none` exactly when nothing was accepted. -/
def PieceSelector.select_pieces_for_peer (s : PieceSelector) (id : Nat)
    (count : Nat) : Option (Option (List Nat) × PieceSelector) :=
  match s.peer_bitfields.lookup id with
  | Option.none => some (Option.none, s)
  | some bitfield =>
    match selLoop s.piece_rarity bitfield [] count s.priority_queue
      s.pieces_in_flight with
    | Option.none => Option.none
    | some res =>
      let queue := res.1
      let s2 := { s with priority_queue := res.2.2.1, pieces_in_flight := res.2.2.2 }
      some (if queue.isEmpty then Option.none else some queue, s2)

/-- A selector operation, as named by the specification: `setBitfield` is
PieceSelector::add_bitfield, `noteHave` is PieceSelector::update_have. -/
inductive SelOp where
  | addPeer (id : Nat)
  | setBitfield (id : Nat) (bf : List Bool)
  | noteHave (id : Nat) (i : Nat)
  | removePeer (id : Nat)
deriving DecidableEq, Repr

/-- Application of one selector operation. -/
def applySelOp (s : PieceSelector) : SelOp → PieceSelector
  | .addPeer id => s.add_peer id
  | .setBitfield id bf => s.add_bitfield id bf
  | .noteHave id i => s.update_have id i
  | .removePeer id => s.remove_peer id

/-- Application of a sequence of selector operations. -/
def applySelOps (s : PieceSelector) (ops : List SelOp) : PieceSelector :=
  ops.foldl applySelOp s

/-- The specified value of the rarity counter at index `i`: the number of
known peers whose recorded bitfield has `i` set and for which our own
bitfield does not have `i` set. -/
def rarityCount (s : PieceSelector) (i : Nat) : Nat :=
  if s.haveBf.getD i false then 0
  else s.peer_bitfields.countP fun p => p.2.getD i false

/-- The specified rarity invariant, over the whole rarity vector. -/
def rarityOk (s : PieceSelector) : Bool :=
  (List.range s.piece_rarity.length).all fun i =>
    s.piece_rarity.getD i 0 == rarityCount s i

/-- Structural well-formedness of a selector state: association-list keys
are distinct and our bitfield and the rarity vector have equal length
(both hold in every state the source constructs). -/
def selWf (s : PieceSelector) : Bool :=
  (s.peer_bitfields.map Prod.fst).Nodup && s.haveBf.length == s.piece_rarity.length

/-- Conditions under which one operation respects the specified rarity
invariant: adding and removing peers always do; recording a bitfield does
when the peer's previously recorded bitfield was effectively empty; a
HAVE does when the peer's recorded bit was still unset and we do not own
the piece. -/
def goodOp (s : PieceSelector) : SelOp → Bool
  | .addPeer _ => true
  | .removePeer _ => true
  | .setBitfield id _ =>
    match s.peer_bitfields.lookup id with
    | Option.none => true
    | some old => (List.range s.piece_rarity.length).all fun i => old.getD i false == false
  | .noteHave id i =>
    match s.peer_bitfields.lookup id with
    | Option.none => true
    | some bf =>
      !(i < bf.length && i < s.piece_rarity.length) ||
        (bf.getD i false == false && s.haveBf.getD i false == false)

/-- A sequence of operations each good in the state where it runs. -/
def goodSeq (s : PieceSelector) : List SelOp → Bool
  | [] => true
  | op :: ops => goodOp s op && goodSeq (applySelOp s op) ops

/-! ## Coordinator (src/peer_manager/mod.rs) -/

/-- ReqMessage: the events PeerManager::run handles, by variant (payload
data is irrelevant to the peer registry, which is what the theorems below
are about). This enum has no disconnect variant. -/
inductive ReqMessage where
  | NewConnection
  | NeedBlockQueue
  | GotBlock
  | NeedBlock
  | WhatDoWeHave
  | Extension
deriving DecidableEq, Repr

/-- Effect of one iteration of PeerManager::run on the peer registry
(`self.peers`, keyed by the 20-byte peer id of the envelope): the
NewConnection arm inserts `peer_msg.peer_id`; no arm removes a key. -/
def runStepPeers (peer_id : Nat) (msg : ReqMessage) (peers : List Nat) : List Nat :=
  match msg with
  | .NewConnection => if peers.contains peer_id then peers else peers ++ [peer_id]
  | _ => peers

/-- Registry after a whole stream of events. -/
def runAllPeers (events : List (Nat × ReqMessage)) (peers : List Nat) : List Nat :=
  events.foldl (fun ps e => runStepPeers e.1 e.2 ps) peers

/-- Panic outcomes of the ReqMessage::NeedBlock arm of PeerManager::run. -/
inductive NeedBlockPanic where
  | indexOutOfBounds
  | todoNoBlock
deriving DecidableEq, Repr

/-- PieceManager::get_block: a positioned read of `length` bytes at
`index * piece_length + begin` from the data file (modelled by its
contents); a failed `read_exact_at` returns `none`. -/
def PieceManager.get_block (file : List Nat) (metainfo : Metainfo)
    (req_payload : RequestPiecePayload) : Option ResponsePiecePayload :=
  let offset := req_payload.index * metainfo.piece_length + req_payload.begin
  if offset + req_payload.length ≤ file.length then
    some { index := req_payload.index
           begin := req_payload.begin
           block := (file.drop offset).take req_payload.length }
  else Option.none

/-- The ReqMessage::NeedBlock arm of PeerManager::run: it indexes
`piece_manager.have[block.index]` (panic when out of range), calls
get_block when the bit is set, and hits a `todo!` when it is not. -/
def handleNeedBlock (haveBf : List Bool) (file : List Nat) (metainfo : Metainfo)
    (block : RequestPiecePayload) :
    Except NeedBlockPanic (Option ResponsePiecePayload) :=
  match haveBf.get? block.index with
  | Option.none => .error .indexOutOfBounds
  | some true => .ok (PieceManager.get_block file metainfo block)
  | some false => .error .todoNoBlock

/-! ## Theorems -/

/-- Claim C1: encode-then-decode of a non-keep-alive message yields the
original message, the length prefix being 1 plus the payload length.
REFUTED as stated, and the code contradicts its own doc comment and its
own decoder: `Message::new` sets the length field to payload length + 4,
so the encoder emits a frame announcing three more bytes than it writes.
Decoding the exact bytes produced for `Have(1)` yields `Ok(None)`
(incomplete frame), not the original message. -/
theorem c1_encode_then_decode_fails :
    MessageFramer.encode (Message.new (.have ⟨1⟩)) = some [0, 0, 0, 8, 4, 0, 0, 0, 1] ∧
    (Message.new (.have ⟨1⟩)).length = 8 ∧
    MessageFramer.decode [0, 0, 0, 8, 4, 0, 0, 0, 1] = .incomplete := by
  decide

/-- Claim C2 (counterexample): a block that completes a hash-valid piece
is integrated while the persistence update fails; contrary to the claim,
the PieceState is no longer in the download queue (it was removed before
the commit even started), and the in-memory bitfield was not yet set when
persistence failed (the code updates the DB first). -/
theorem c2_counterexample :
    PieceManager.write_block ⟨true, false, id⟩
      ⟨[false], [⟨[.InProcess], 0, [0]⟩], [], []⟩ ⟨0, 0, [7]⟩ ⟨1, [[7]], 1⟩
      = some (⟨[false], [], [(0, [7])], []⟩, .error ()) := by
  rfl

/-- Claim C3 (counterexample): a block that completes a piece whose hash
mismatches; contrary to the claim, the queue afterwards contains no
PieceState at all for that piece (nothing is reset in place), and
write_block even reports the piece index as finished. -/
theorem c3_counterexample :
    PieceManager.write_block ⟨true, true, id⟩
      ⟨[false], [⟨[.InProcess], 0, [0]⟩], [], []⟩ ⟨0, 0, [7]⟩ ⟨1, [[9]], 1⟩
      = some (⟨[false], [], [], []⟩, .ok (some 0)) := by
  rfl

/-- Claim C4 (counterexample): starting from the empty queue of a
one-piece torrent (so the candidate iterator is a singleton and the
random choice is forced), two calls of prepare_next_blocks yield a queue
with two PieceStates for piece 0: the first call marks the only block
in-process, so the second finds no piece with a `None` block and
add_piece_to_queue, which never checks membership, inserts a duplicate. -/
theorem c4_counterexample :
    ((PieceManager.prepare_next_blocks List.head? 20 [false]
        (PieceManager.prepare_next_blocks List.head? 20 [false] [] [true]
          ⟨16384, [[0]], 1⟩).2
        [true] ⟨16384, [[0]], 1⟩).2.map PieceState.piece_i) = [0, 0] := by
  decide

/-- Claim C5 (counterexample): after add_peer, a bitfield and one repeated
HAVE from the same peer for the same (unowned) piece, the rarity counter
is 2 although exactly one known peer has the piece: update_have
increments unconditionally. -/
theorem c5_counterexample :
    (applySelOps (PieceSelector.new [false])
      [.addPeer 7, .setBitfield 7 [true], .noteHave 7 0]).piece_rarity = [2] ∧
    rarityCount (applySelOps (PieceSelector.new [false])
      [.addPeer 7, .setBitfield 7 [true], .noteHave 7 0]) 0 = 1 := by
  decide

/-- Claim C6 (counterexample): with two acceptable heap entries (every
index in range of the rarity, bitfield and in-flight vectors, so no
indexing panics) and `count = 1`, select returns both: the loop guard
`queue.len() <= queue.capacity()` is vacuous, so the heap is drained and
the result exceeds `count`. -/
theorem c6_counterexample :
    (PieceSelector.select_pieces_for_peer
      ⟨[1, 1], [(1, 0), (1, 1)], [false, false], [(0, [true, true])], [false, false]⟩
      0 1).map (fun r => r.1) = some (some [0, 1]) ∧ 1 < [0, 1].length := by
  decide

/-- Claim C7: serving an incoming block request never panics and replies
`None` when the piece is absent or the index is out of range. REFUTED:
the NeedBlock arm indexes the bitfield (panicking out of range) and hits
a literal `todo!` when the bit is unset; only the IO-failure path of
get_block yields `None`. -/
theorem c7_need_block_arm_panics :
    handleNeedBlock [false] [] ⟨1, [[0]], 1⟩ ⟨0, 0, 1⟩ = .error .todoNoBlock ∧
    handleNeedBlock [] [] ⟨1, [[0]], 1⟩ ⟨0, 0, 1⟩ = .error .indexOutOfBounds ∧
    handleNeedBlock [true] [] ⟨1, [[0]], 1⟩ ⟨0, 0, 1⟩ = .ok Option.none := by
  exact ⟨rfl, rfl, rfl⟩

/-- Claim C9: the coordinator removes a peer's registry entry on a
PeerDisconnected event. REFUTED: ReqMessage has no such variant and no
arm of PeerManager::run removes registry entries — after any stream of
events every previously registered peer is still registered (dead peers
are zombies). -/
theorem c9_registry_never_shrinks (events : List (Nat × ReqMessage))
    (peers : List Nat) : peers ⊆ runAllPeers events peers := by
  have hstep : ∀ (pid : Nat) (m : ReqMessage) (ps : List Nat),
      ps ⊆ runStepPeers pid m ps := by
    intro pid m ps a ha
    cases m <;> first
      | exact ha
      | (simp only [runStepPeers]
         split
         · exact ha
         · exact List.mem_append_left _ ha)
  induction events generalizing peers with
  | nil => simp [runAllPeers]
  | cons e es ih =>
    exact (hstep e.1 e.2 peers).trans (ih (runStepPeers e.1 e.2 peers))

/-- Claim C10: the Piece and Have payload decoders are not total — any
Piece payload shorter than 8 bytes and any Have payload shorter than 4
bytes makes `from_be_bytes` panic (modelled as `none`) instead of
returning an error value. -/
theorem c10_payload_decoders_not_total :
    (∀ bytes : List Nat, bytes.length < 8 →
      ResponsePiecePayload.from_be_bytes bytes = Option.none) ∧
    (∀ payload : List Nat, payload.length < 4 →
      HavePayload.from_be_bytes payload = Option.none) := by
  constructor
  · intro bytes h
    simp [ResponsePiecePayload.from_be_bytes, h]
  · intro payload h
    simp [HavePayload.from_be_bytes, h]

/-- Helper: update_piece_state on a queue whose entry completes. -/
theorem update_piece_state_completes (q : List PieceState)
    (block : ResponsePiecePayload) (queue_i : Nat) (ps ps2 : PieceState)
    (h1 : q.findIdx? (fun s => s.piece_i == block.index) = some queue_i)
    (h2 : q.get? queue_i = some ps)
    (h3 : ps.update_state block = some ps2)
    (h4 : ps2.blocks.all BlockState.is_finished = true) :
    DownloadQueue.update_piece_state q block =
      some (some ps2, swapRemove (q.set queue_i ps2) queue_i) := by
  simp only [DownloadQueue.update_piece_state, h1, h2, h3, h4, if_true]

/-- Claim C2 (amended): when a received block completes a piece whose
SHA-1 matches, the commit sequence is: remove the completed PieceState
from the queue, write the buffer to the data file at offset
index·piece_length, update the persisted bitfield, and only then set the
in-memory bitfield entry; FinishedPiece is reported only if both the
write and the persistence succeed; if either fails, the piece has
nevertheless already been removed from the download queue (only the
bitfields are left unchanged, so the piece can re-enter the queue
later). -/
theorem c2_commit_sequence (env : CommitEnv) (pm : PieceManager)
    (block : ResponsePiecePayload) (mi : Metainfo) (queue_i : Nat)
    (ps ps2 : PieceState)
    (h1 : pm.download_queue.findIdx? (fun s => s.piece_i == block.index) = some queue_i)
    (h2 : pm.download_queue.get? queue_i = some ps)
    (h3 : ps.update_state block = some ps2)
    (h4 : ps2.blocks.all BlockState.is_finished = true)
    (h5 : ps2.check_hash env mi = some true)
    (h6 : ps2.piece_i < pm.haveBf.length) :
    (env.fileOk = false →
      PieceManager.write_block env pm block mi =
        some ({ pm with
          download_queue := swapRemove (pm.download_queue.set queue_i ps2) queue_i },
          .error ())) ∧
    (env.fileOk = true → env.dbOk = false →
      PieceManager.write_block env pm block mi =
        some ({ pm with
          download_queue := swapRemove (pm.download_queue.set queue_i ps2) queue_i
          fileWrites := pm.fileWrites ++ [(ps2.piece_i * mi.piece_length, ps2.buf)] },
          .error ())) ∧
    (env.fileOk = true → env.dbOk = true →
      PieceManager.write_block env pm block mi =
        some ({ pm with
          download_queue := swapRemove (pm.download_queue.set queue_i ps2) queue_i
          fileWrites := pm.fileWrites ++ [(ps2.piece_i * mi.piece_length, ps2.buf)]
          dbBitfields := pm.dbBitfields ++ [pm.haveBf.set ps2.piece_i true]
          haveBf := pm.haveBf.set ps2.piece_i true },
          .ok (some ps2.piece_i))) := by
  have hupd := update_piece_state_completes pm.download_queue block queue_i ps ps2 h1 h2 h3 h4
  refine ⟨?_, ?_, ?_⟩
  · intro hf
    simp [PieceManager.write_block, hupd, PieceManager.handle_piece, h5,
      PieceManager.write_piece_to_file, hf, h6]
  · intro hf hd
    simp [PieceManager.write_block, hupd, PieceManager.handle_piece, h5,
      PieceManager.write_piece_to_file, hf, hd, h6]
  · intro hf hd
    simp [PieceManager.write_block, hupd, PieceManager.handle_piece, h5,
      PieceManager.write_piece_to_file, hf, hd, h6]

/-- Witness for C2 (amended) on the concrete one-piece commit. -/
theorem c2_commit_sequence_witness :
    PieceManager.write_block ⟨true, true, id⟩
      ⟨[false], [⟨[.InProcess], 0, [0]⟩], [], []⟩ ⟨0, 0, [7]⟩ ⟨1, [[7]], 1⟩
      = some (⟨[true], [], [(0, [7])], [[true]]⟩, .ok (some 0)) := by
  have h := (c2_commit_sequence ⟨true, true, id⟩
    ⟨[false], [⟨[.InProcess], 0, [0]⟩], [], []⟩ ⟨0, 0, [7]⟩ ⟨1, [[7]], 1⟩
    0 ⟨[.InProcess], 0, [0]⟩ ⟨[.Finished], 0, [7]⟩
    rfl rfl rfl rfl rfl (by decide)).2.2 rfl rfl
  exact h

/-- Claim C3 (amended): integrating the final block of a piece whose
buffer hash does not match removes the completed PieceState from the
queue without resetting any block state (the entry is dropped, and
write_block even reports the piece index as finished); the bitfields and
the file are untouched, so the piece — still absent from our bitfield —
can re-enter the queue through add_piece_to_queue and be re-requested. -/
theorem c3_mismatch_evicts (env : CommitEnv) (pm : PieceManager)
    (block : ResponsePiecePayload) (mi : Metainfo) (queue_i : Nat)
    (ps ps2 : PieceState)
    (h1 : pm.download_queue.findIdx? (fun s => s.piece_i == block.index) = some queue_i)
    (h2 : pm.download_queue.get? queue_i = some ps)
    (h3 : ps.update_state block = some ps2)
    (h4 : ps2.blocks.all BlockState.is_finished = true)
    (h5 : ps2.check_hash env mi = some false) :
    PieceManager.write_block env pm block mi =
      some ({ pm with
        download_queue := swapRemove (pm.download_queue.set queue_i ps2) queue_i },
        .ok (some ps2.piece_i)) := by
  have hupd := update_piece_state_completes pm.download_queue block queue_i ps ps2 h1 h2 h3 h4
  simp only [PieceManager.write_block, hupd, PieceManager.handle_piece, h5,
    Bool.not_false, if_true]

/-- Witness for C3 (amended) on the concrete one-piece mismatch. -/
theorem c3_mismatch_evicts_witness :
    PieceManager.write_block ⟨true, true, id⟩
      ⟨[false], [⟨[.InProcess], 0, [0]⟩], [], []⟩ ⟨0, 0, [7]⟩ ⟨1, [[9]], 1⟩
      = some (⟨[false], [], [], []⟩, .ok (some 0)) :=
  c3_mismatch_evicts ⟨true, true, id⟩
    ⟨[false], [⟨[.InProcess], 0, [0]⟩], [], []⟩ ⟨0, 0, [7]⟩ ⟨1, [[9]], 1⟩
    0 ⟨[.InProcess], 0, [0]⟩ ⟨[.Finished], 0, [7]⟩ rfl rfl rfl rfl rfl

/-- Helper: a member of the candidate list is a piece we lack and that
the peer has. -/
theorem mem_pieceCandidates (i_have peer_has : List Bool) (i : Nat)
    (h : i ∈ pieceCandidates i_have peer_has) :
    i_have.getD i false = false ∧ peer_has.getD i false = true := by
  simp only [pieceCandidates, List.mem_filterMap] at h
  obtain ⟨x, hx, hfx⟩ := h
  have hz : (i_have.zip peer_has)[x.1]? = some x.2 :=
    List.mem_enum_iff_getElem?.mp hx
  rw [List.getElem?_zip_eq_some] at hz
  obtain ⟨ha, hb⟩ := hz
  by_cases hcond : !x.2.1 && x.2.2
  · rw [if_pos hcond] at hfx
    cases hfx
    simp only [Bool.and_eq_true, Bool.not_eq_true'] at hcond
    constructor
    · rw [List.getD_eq_getElem?_getD, ha, hcond.1]
      rfl
    · rw [List.getD_eq_getElem?_getD, hb, hcond.2]
      rfl
  · rw [if_neg hcond] at hfx
    cases hfx

/-- Claim C4 (amended): add_piece_to_queue never inserts a piece we
already have or one the peer lacks, and an unsuccessful call leaves the
queue unchanged; but it does not test membership in the queue, so
uniqueness of piece indices holds only while every queued entry for a
piece the peer has retains a `None` block — once all blocks of such an
entry are in flight, prepare_next_blocks inserts a second PieceState for
the same piece (see the counterexample). -/
theorem c4_add_piece_spec (pick : List Nat → Option Nat)
    (hpick : ∀ l x, pick l = some x → x ∈ l)
    (q : List PieceState) (i_have peer_has : List Bool) (mi : Metainfo)
    (b : Bool) (q2 : List PieceState)
    (h : DownloadQueue.add_piece_to_queue pick q i_have peer_has mi = (b, q2)) :
    (b = false → q2 = q) ∧
    (b = true → ∃ i, q2 = q ++ [PieceState.new mi i] ∧
      i_have.getD i false = false ∧ peer_has.getD i false = true) := by
  unfold DownloadQueue.add_piece_to_queue at h
  split at h
  · cases h
    exact ⟨fun _ => rfl, fun hb => absurd hb (by decide)⟩
  · rcases hp : pick (pieceCandidates i_have peer_has) with _ | i
    · rw [hp] at h
      cases h
      exact ⟨fun _ => rfl, fun hb => absurd hb (by decide)⟩
    · rw [hp] at h
      cases h
      exact ⟨fun hb => absurd hb (by decide),
        fun _ => ⟨i, rfl, mem_pieceCandidates i_have peer_has i (hpick _ _ hp)⟩⟩

/-- Witness for C4 (amended): the forced insertion of the single
candidate piece of a one-piece torrent. -/
theorem c4_add_piece_spec_witness :
    ((DownloadQueue.add_piece_to_queue List.head? [] [false] [true]
        ⟨16384, [[0]], 1⟩).1 = false →
      (DownloadQueue.add_piece_to_queue List.head? [] [false] [true]
        ⟨16384, [[0]], 1⟩).2 = []) ∧
    ((DownloadQueue.add_piece_to_queue List.head? [] [false] [true]
        ⟨16384, [[0]], 1⟩).1 = true →
      ∃ i, (DownloadQueue.add_piece_to_queue List.head? [] [false] [true]
        ⟨16384, [[0]], 1⟩).2 = [] ++ [PieceState.new ⟨16384, [[0]], 1⟩ i] ∧
        [false].getD i false = false ∧ [true].getD i false = true) := by
  have hpick : ∀ (l : List Nat) (x : Nat), List.head? l = some x → x ∈ l := by
    intro l x hx
    cases l with
    | nil => cases hx
    | cons a as =>
      simp only [List.head?, Option.some.injEq] at hx
      subst hx
      exact List.mem_cons_self _ _
  exact c4_add_piece_spec List.head? hpick [] [false] [true] ⟨16384, [[0]], 1⟩ _ _ rfl

/-- Helper: the source's div_ceil is the usual ceiling division, at the
block size. -/
theorem div_ceil_block (a : Nat) :
    div_ceil a BLOCK_MAX = (a + (BLOCK_MAX - 1)) / BLOCK_MAX := by
  have hb : BLOCK_MAX = 16384 := by decide
  rw [hb]
  unfold div_ceil
  split
  · next h =>
    have h2 : a % 16384 = 0 := by simpa using h
    omega
  · next h =>
    have h2 : a % 16384 ≠ 0 := by simpa using h
    omega

/-- Helper: the size the source computes for the last piece. -/
theorem get_piece_size_last (mi : Metainfo) (n r : Nat)
    (hn : mi.pieces.length = n) (_h1 : 1 ≤ n) (hr0 : 0 < r)
    (hrp : r ≤ mi.piece_length)
    (hlen : mi.length = mi.piece_length * (n - 1) + r) :
    get_piece_size mi (n - 1) = r := by
  have hplen : 0 < mi.piece_length := lt_of_lt_of_le hr0 hrp
  have hmod : mi.length % mi.piece_length = r % mi.piece_length := by
    rw [hlen, Nat.mul_comm, Nat.add_comm, Nat.add_mul_mod_self_right]
  show (if (n - 1 == mi.pieces.length - 1 && mi.length % mi.piece_length != 0) = true
      then mi.length % mi.piece_length else mi.piece_length) = r
  split
  · next hcond =>
    simp only [Bool.and_eq_true, beq_iff_eq, bne_iff_ne, ne_eq] at hcond
    rcases eq_or_lt_of_le hrp with heq | hlt
    · exfalso
      apply hcond.2
      rw [hmod, heq, Nat.mod_self]
    · rw [hmod, Nat.mod_eq_of_lt hlt]
  · next hcond =>
    simp only [hn] at hcond
    have h2 : mi.length % mi.piece_length = 0 := by simpa using hcond
    rw [hmod] at h2
    rcases eq_or_lt_of_le hrp with heq | hlt
    · exact heq.symm
    · rw [Nat.mod_eq_of_lt hlt] at h2
      omega

/-- Claim C8: for a torrent of total length piece_length·(n−1)+r with
0 < r ≤ piece_length, the PieceState of the last piece has a buffer of
exactly r bytes and ceil(r/16384) blocks; every block but the last is
16384 bytes, the last is r − 16384·(blocks−1); and every request
prepare_next_blocks produces has begin = k·16384 for its block index k. -/
theorem c8_last_piece_layout (mi : Metainfo) (n r : Nat)
    (hn : mi.pieces.length = n) (h1 : 1 ≤ n) (hr0 : 0 < r)
    (hrp : r ≤ mi.piece_length)
    (hlen : mi.length = mi.piece_length * (n - 1) + r) :
    (PieceState.new mi (n - 1)).buf.length = r ∧
    (PieceState.new mi (n - 1)).blocks.length = (r + (BLOCK_MAX - 1)) / BLOCK_MAX ∧
    (∀ k, k + 1 < (PieceState.new mi (n - 1)).blocks.length →
      get_block_len (PieceState.new mi (n - 1)).blocks.length
        (PieceState.new mi (n - 1)).buf.length k = BLOCK_MAX) ∧
    (get_block_len (PieceState.new mi (n - 1)).blocks.length
      (PieceState.new mi (n - 1)).buf.length
      ((PieceState.new mi (n - 1)).blocks.length - 1)
      = r - BLOCK_MAX * ((PieceState.new mi (n - 1)).blocks.length - 1)) ∧
    (∀ pick nn q i_have peer_has req,
      req ∈ (PieceManager.prepare_next_blocks pick nn i_have q peer_has mi).1 →
      ∃ k, req.begin = k * BLOCK_MAX) := by
  have hsize := get_piece_size_last mi n r hn h1 hr0 hrp hlen
  have hbuf : (PieceState.new mi (n - 1)).buf.length = r := by
    simp [PieceState.new, hsize]
  have hblocks : (PieceState.new mi (n - 1)).blocks.length = div_ceil r BLOCK_MAX := by
    simp [PieceState.new, hsize]
  have hBM : BLOCK_MAX = 16384 := by decide
  refine ⟨hbuf, ?_, ?_, ?_, ?_⟩
  · rw [hblocks, div_ceil_block]
  · intro k hk
    rw [hblocks] at hk
    rw [hblocks, hbuf]
    unfold get_block_len
    have hne : (k == div_ceil r BLOCK_MAX - 1) = false := by
      simp only [beq_eq_false_iff_ne, ne_eq]
      omega
    simp [hne]
  · rw [hblocks, hbuf, div_ceil_block, hBM]
    unfold get_block_len
    rw [hBM]
    split
    · next hc =>
      simp only [Bool.and_eq_true, bne_iff_ne, ne_eq] at hc
      omega
    · next hc =>
      have h2 : r % 16384 = 0 := by simpa using hc
      omega
  · intro pick nn q i_have peer_has req hreq
    unfold PieceManager.prepare_next_blocks at hreq
    split at hreq
    · cases hreq
    · split at hreq
      · cases hreq
      · simp only [List.mem_map] at hreq
        obtain ⟨k, _, hk⟩ := hreq
        exact ⟨k, by rw [← hk]⟩

/-- Witness for C8 on the 3-piece, 80-byte torrent of the specification
(piece_length 32, last piece 16 bytes, a single 16-byte block). -/
theorem c8_last_piece_layout_witness :
    (PieceState.new ⟨32, [[1], [2], [3]], 80⟩ (3 - 1)).buf.length = 16 ∧
    (PieceState.new ⟨32, [[1], [2], [3]], 80⟩ (3 - 1)).blocks.length =
      (16 + (BLOCK_MAX - 1)) / BLOCK_MAX ∧
    (∀ k, k + 1 < (PieceState.new ⟨32, [[1], [2], [3]], 80⟩ (3 - 1)).blocks.length →
      get_block_len (PieceState.new ⟨32, [[1], [2], [3]], 80⟩ (3 - 1)).blocks.length
        (PieceState.new ⟨32, [[1], [2], [3]], 80⟩ (3 - 1)).buf.length k = BLOCK_MAX) ∧
    (get_block_len (PieceState.new ⟨32, [[1], [2], [3]], 80⟩ (3 - 1)).blocks.length
      (PieceState.new ⟨32, [[1], [2], [3]], 80⟩ (3 - 1)).buf.length
      ((PieceState.new ⟨32, [[1], [2], [3]], 80⟩ (3 - 1)).blocks.length - 1)
      = 16 - BLOCK_MAX * ((PieceState.new ⟨32, [[1], [2], [3]], 80⟩ (3 - 1)).blocks.length - 1)) ∧
    (∀ pick nn q i_have peer_has req,
      req ∈ (PieceManager.prepare_next_blocks pick nn i_have q peer_has
        ⟨32, [[1], [2], [3]], 80⟩).1 →
      ∃ k, req.begin = k * BLOCK_MAX) :=
  c8_last_piece_layout ⟨32, [[1], [2], [3]], 80⟩ 3 16 rfl (by decide) (by decide)
    (by decide) (by decide)

/-- Helper: getD after set at the written index. -/
theorem getD_set_self_bool (l : List Bool) (i : Nat) (a : Bool) (h : i < l.length) :
    (l.set i a).getD i false = a := by
  rw [List.getD_eq_getElem?_getD, List.getElem?_set_self (by simpa using h)]
  rfl

/-- Helper: getD after set at a different index. -/
theorem getD_set_ne_bool (l : List Bool) (i j : Nat) (a : Bool) (h : j ≠ i) :
    (l.set i a).getD j false = l.getD j false := by
  rw [List.getD_eq_getElem?_getD, List.getElem?_set_ne (by omega),
    ← List.getD_eq_getElem?_getD]

/-- Helper: popMin is none exactly on the empty heap. -/
theorem popMin_eq_none (l : List (Nat × Nat)) :
    popMin l = Option.none ↔ l = [] := by
  cases l with
  | nil => simp [popMin]
  | cons x xs =>
    simp only [popMin]
    constructor
    · intro h
      rcases hx : popMin xs with _ | ⟨m, rest⟩ <;> rw [hx] at h <;> simp only at h
      · exact Option.noConfusion h
      · split at h <;> exact Option.noConfusion h
    · intro h
      exact List.noConfusion h

/-- Helper: popping shrinks the heap by one entry. -/
theorem popMin_length (l : List (Nat × Nat)) (m : Nat × Nat)
    (rest : List (Nat × Nat)) (h : popMin l = some (m, rest)) :
    rest.length + 1 = l.length := by
  induction l generalizing m rest with
  | nil => cases h
  | cons x xs ih =>
    simp only [popMin] at h
    cases hx : popMin xs with
    | none =>
      rw [hx] at h
      cases h
      have : xs = [] := (popMin_eq_none xs).mp hx
      subst this
      rfl
    | some p =>
      obtain ⟨m2, rest2⟩ := p
      rw [hx] at h
      simp only at h
      split at h <;> simp only [Option.some.injEq, Prod.mk.injEq] at h <;>
        obtain ⟨hm, hr⟩ := h
      · rw [← hr]
        rfl
      · rw [← hr]
        have := ih m2 rest2 hx
        simp only [List.length_cons]
        omega

/-- Helper: the popped entry is a heap member. -/
theorem popMin_mem (l : List (Nat × Nat)) (m : Nat × Nat)
    (rest : List (Nat × Nat)) (h : popMin l = some (m, rest)) : m ∈ l := by
  induction l generalizing m rest with
  | nil => cases h
  | cons x xs ih =>
    simp only [popMin] at h
    cases hx : popMin xs with
    | none =>
      rw [hx] at h
      cases h
      exact List.mem_cons_self x xs
    | some p =>
      obtain ⟨m2, rest2⟩ := p
      rw [hx] at h
      simp only at h
      split at h <;> simp only [Option.some.injEq, Prod.mk.injEq] at h <;>
        obtain ⟨hm, hr⟩ := h
      · rw [← hm]
        exact List.mem_cons_self x xs
      · rw [← hm]
        exact List.mem_cons_of_mem x (ih m2 rest2 hx)

/-- Helper: the remaining heap is a sublist of the heap. -/
theorem popMin_sublist (l : List (Nat × Nat)) (m : Nat × Nat)
    (rest : List (Nat × Nat)) (h : popMin l = some (m, rest)) :
    rest.Sublist l := by
  induction l generalizing m rest with
  | nil => cases h
  | cons x xs ih =>
    simp only [popMin] at h
    cases hx : popMin xs with
    | none =>
      rw [hx] at h
      cases h
      exact List.nil_sublist _
    | some p =>
      obtain ⟨m2, rest2⟩ := p
      rw [hx] at h
      simp only at h
      split at h <;> simp only [Option.some.injEq, Prod.mk.injEq] at h <;>
        obtain ⟨hm, hr⟩ := h
      · rw [← hr]
        exact List.sublist_cons_self x xs
      · rw [← hr]
        exact (ih m2 rest2 hx).cons₂ x

/-- Helper: a push always fits in the grown capacity. -/
theorem le_growCap (cap newLen : Nat) : newLen ≤ growCap cap newLen := by
  unfold growCap
  split
  · assumption
  · exact le_trans (Nat.le_max_left newLen 4) (Nat.le_max_right (2 * cap) _)

/-- Helper: when all three indexings are in range the accept condition
does not panic and evaluates to the conjunction of the source's three
tests. -/
theorem selAccept_eval (rarity : List Nat) (bf flight : List Bool) (r i : Nat)
    (r0 : Nat) (b f : Bool)
    (hr : rarity[i]? = some r0) (hb : bf[i]? = some b)
    (hf : flight[i]? = some f) :
    selAccept rarity bf flight r i = some (r0 == r && b && !f) := by
  unfold selAccept
  rw [hr, Option.some_bind]
  by_cases hrr : (r0 == r) = true
  · rw [if_pos hrr, hb, Option.some_bind]
    by_cases hbb : b = true
    · rw [if_pos hbb, hf, hrr, hbb]
      rfl
    · rw [if_neg hbb]
      have hbf : b = false := by revert hbb; cases b <;> simp
      rw [hrr, hbf]
      rfl
  · rw [if_neg hrr]
    have hrf : (r0 == r) = false := by revert hrr; cases (r0 == r) <;> simp
    rw [hrf]
    rfl

/-- Helper: one loop step when the heap is exhausted. -/
theorem selLoopFuel_succ_none (rarity : List Nat) (bf : List Bool) (fuel : Nat)
    (queue : List Nat) (cap : Nat) (heap : List (Nat × Nat)) (flight : List Bool)
    (hqc : queue.length ≤ cap) (hpop : popMin heap = Option.none) :
    selLoopFuel rarity bf (fuel + 1) queue cap heap flight =
      some (queue, cap, heap, flight) := by
  rw [selLoopFuel, if_pos hqc, hpop]

/-- Helper: one loop step on an accepted pop. -/
theorem selLoopFuel_succ_accept (rarity : List Nat) (bf : List Bool) (fuel : Nat)
    (queue : List Nat) (cap : Nat) (heap : List (Nat × Nat)) (flight : List Bool)
    (r i : Nat) (heap2 : List (Nat × Nat))
    (hqc : queue.length ≤ cap) (hpop : popMin heap = some ((r, i), heap2))
    (hacc : selAccept rarity bf flight r i = some true) :
    selLoopFuel rarity bf (fuel + 1) queue cap heap flight =
      selLoopFuel rarity bf fuel (queue ++ [i]) (growCap cap (queue.length + 1))
        heap2 (flight.set i true) := by
  rw [selLoopFuel, if_pos hqc]
  simp only [hpop, hacc]

/-- Helper: one loop step on a rejected pop. -/
theorem selLoopFuel_succ_reject (rarity : List Nat) (bf : List Bool) (fuel : Nat)
    (queue : List Nat) (cap : Nat) (heap : List (Nat × Nat)) (flight : List Bool)
    (r i : Nat) (heap2 : List (Nat × Nat))
    (hqc : queue.length ≤ cap) (hpop : popMin heap = some ((r, i), heap2))
    (hacc : selAccept rarity bf flight r i = some false) :
    selLoopFuel rarity bf (fuel + 1) queue cap heap flight =
      selLoopFuel rarity bf fuel queue cap heap2 flight := by
  rw [selLoopFuel, if_pos hqc]
  simp only [hpop, hacc]

/-- Helper: the full behaviour of the selection loop, by induction over
the fuel. Starting from any queue satisfying the Vec invariant and whose
members are marked in flight, and with every heap entry's index in range
of the rarity, bitfield and in-flight vectors (so no indexing panics),
the loop returns `some`, drains the heap completely and appends exactly
the accepted entries: each appended index is one the peer has that was
not in flight before and is in flight after; indices not appended keep
their in-flight bit; no index is appended twice. -/
theorem selLoopFuel_spec (rarity : List Nat) (bf : List Bool) (fuel : Nat) :
    ∀ (queue : List Nat) (cap : Nat) (heap : List (Nat × Nat)) (flight : List Bool),
    heap.length ≤ fuel → queue.length ≤ cap →
    (∀ i ∈ queue, flight.getD i false = true) →
    (∀ p ∈ heap, p.2 < rarity.length ∧ p.2 < bf.length ∧ p.2 < flight.length) →
    queue.Nodup →
    ∃ out, selLoopFuel rarity bf fuel queue cap heap flight = some out ∧
      out.2.2.1 = [] ∧
      ∃ added : List Nat,
        out.1 = queue ++ added ∧
        added.Nodup ∧
        (∀ i ∈ added, bf.getD i false = true ∧ flight.getD i false = false ∧
          out.2.2.2.getD i false = true) ∧
        (∀ j, j ∉ added → out.2.2.2.getD j false = flight.getD j false) := by
  induction fuel with
  | zero =>
    intro queue cap heap flight hlen hqc hque hbound hnd
    have hempty : heap = [] := List.length_eq_zero.mp (Nat.le_zero.mp hlen)
    subst hempty
    exact ⟨(queue, cap, [], flight), rfl, rfl, [], (List.append_nil queue).symm,
      List.nodup_nil, fun i hi => absurd hi (List.not_mem_nil i), fun j _ => rfl⟩
  | succ fuel ih =>
    intro queue cap heap flight hlen hqc hque hbound hnd
    rcases hpop : popMin heap with _ | ⟨⟨r, i⟩, heap2⟩
    · have hempty : heap = [] := (popMin_eq_none heap).mp hpop
      refine ⟨(queue, cap, heap, flight),
        selLoopFuel_succ_none rarity bf fuel queue cap heap flight hqc hpop,
        hempty, [], (List.append_nil queue).symm, List.nodup_nil,
        fun i hi => absurd hi (List.not_mem_nil i), fun j _ => rfl⟩
    · obtain ⟨hir, hib, hif⟩ := hbound (r, i) (popMin_mem heap (r, i) heap2 hpop)
      have hr0 : rarity[i]? = some rarity[i] := List.getElem?_eq_getElem hir
      have hb0 : bf[i]? = some bf[i] := List.getElem?_eq_getElem hib
      have hf0 : flight[i]? = some flight[i] := List.getElem?_eq_getElem hif
      have hacc := selAccept_eval rarity bf flight r i rarity[i] bf[i] flight[i]
        hr0 hb0 hf0
      have hlen2 : heap2.length ≤ fuel := by
        have := popMin_length heap (r, i) heap2 hpop
        omega
      have hsub := popMin_sublist heap (r, i) heap2 hpop
      have hbound2 : ∀ p ∈ heap2,
          p.2 < rarity.length ∧ p.2 < bf.length ∧ p.2 < flight.length :=
        fun p hp => hbound p (hsub.subset hp)
      cases hcond : (rarity[i] == r && bf[i] && !flight[i]) with
      | true =>
        rw [hcond] at hacc
        simp only [Bool.and_eq_true, Bool.not_eq_true', beq_iff_eq] at hcond
        obtain ⟨⟨haccr, haccb⟩, haccf⟩ := hcond
        have haccbD : bf.getD i false = true := by
          rw [List.getD_eq_getElem?_getD, hb0, haccb]
          rfl
        have haccfD : flight.getD i false = false := by
          rw [List.getD_eq_getElem?_getD, hf0, haccf]
          rfl
        have hstep := selLoopFuel_succ_accept rarity bf fuel queue cap heap flight
          r i heap2 hqc hpop hacc
        have hqc2 : (queue ++ [i]).length ≤ growCap cap (queue.length + 1) := by
          rw [List.length_append, List.length_singleton]
          exact le_growCap cap (queue.length + 1)
        have hque2 : ∀ x ∈ queue ++ [i], (flight.set i true).getD x false = true := by
          intro x hx
          rcases List.mem_append.mp hx with hx | hx
          · rcases eq_or_ne x i with rfl | hne
            · exact getD_set_self_bool flight x true hif
            · rw [getD_set_ne_bool flight i x true hne]
              exact hque x hx
          · rw [List.mem_singleton.mp hx]
            exact getD_set_self_bool flight i true hif
        have hbound3 : ∀ p ∈ heap2,
            p.2 < rarity.length ∧ p.2 < bf.length ∧ p.2 < (flight.set i true).length := by
          intro p hp
          rw [List.length_set]
          exact hbound2 p hp
        have hiq : i ∉ queue := by
          intro hmem
          have := hque i hmem
          rw [haccfD] at this
          cases this
        have hnd2 : (queue ++ [i]).Nodup := by
          rw [List.nodup_append]
          exact ⟨hnd, List.nodup_singleton i,
            fun a ha hb => (List.mem_singleton.mp hb ▸ hiq) ha⟩
        obtain ⟨out, hout, hdrain, added2, hql, hnda, hprops, hother⟩ :=
          ih (queue ++ [i]) (growCap cap (queue.length + 1)) heap2
            (flight.set i true) hlen2 hqc2 hque2 hbound3 hnd2
        have hia : i ∉ added2 := by
          intro hmem
          have := (hprops i hmem).2.1
          rw [getD_set_self_bool flight i true hif] at this
          cases this
        refine ⟨out, ?_, hdrain, i :: added2, ?_,
          List.nodup_cons.mpr ⟨hia, hnda⟩, ?_, ?_⟩
        · rw [hstep]
          exact hout
        · rw [hql, List.append_assoc]
          rfl
        · intro x hx
          rcases List.mem_cons.mp hx with rfl | hx
          · refine ⟨haccbD, haccfD, ?_⟩
            rw [hother x hia]
            exact getD_set_self_bool flight x true hif
          · have hprop := hprops x hx
            have hxi : x ≠ i := by
              intro heq
              subst heq
              have := hprop.2.1
              rw [getD_set_self_bool flight x true hif] at this
              cases this
            refine ⟨hprop.1, ?_, hprop.2.2⟩
            have h2 := hprop.2.1
            rwa [getD_set_ne_bool flight i x true hxi] at h2
        · intro j hj
          have hji : j ≠ i := fun heq => hj (heq ▸ List.mem_cons_self i added2)
          have hja : j ∉ added2 := fun hmem => hj (List.mem_cons_of_mem i hmem)
          rw [hother j hja, getD_set_ne_bool flight i j true hji]
      | false =>
        rw [hcond] at hacc
        have hstep := selLoopFuel_succ_reject rarity bf fuel queue cap heap flight
          r i heap2 hqc hpop hacc
        obtain ⟨out, hout, hrest⟩ := ih queue cap heap2 flight hlen2 hqc hque hbound2 hnd
        refine ⟨out, ?_, hrest⟩
        rw [hstep]
        exact hout

/-- Definition fidelity of the panic: with a known peer whose recorded
bitfield is the empty one add_peer installs, and a heap entry whose
rarity matches, the source's `bitfield[i]` indexing is out of range, so
select_pieces_for_peer panics (the embedding returns `none`) rather than
rejecting the entry. -/
theorem select_panics_on_short_bitfield :
    PieceSelector.select_pieces_for_peer
      ⟨[1], [(1, 0)], [false], [(0, [])], [false]⟩ 0 5 = Option.none := by
  rfl

/-- Claim C6 (amended): provided every heap entry's index is in range of
the rarity, peer-bitfield and in-flight vectors (out of range, the
source's indexing panics instead), select pops the heap, accepting an
entry (r, i) exactly when the current rarity of i equals r, the peer has
i, and i is not in flight; accepted pieces are appended (no duplicates)
and marked in-flight, other in-flight bits are untouched; stale and
rejected pops are discarded without reinsertion — indeed the final heap
is empty, the loop's count bound being vacuous (a Vec's length never
exceeds its capacity), so the result holds every accepted entry and may
exceed `count`; `none` is returned exactly when nothing was accepted. -/
theorem c6_select_spec (s : PieceSelector) (id : Nat) (count : Nat)
    (bf : List Bool)
    (hbf : s.peer_bitfields.lookup id = some bf)
    (hheap : ∀ p ∈ s.priority_queue, p.2 < s.piece_rarity.length ∧
      p.2 < bf.length ∧ p.2 < s.pieces_in_flight.length) :
    ∃ result s2, s.select_pieces_for_peer id count = some (result, s2) ∧
      s2.priority_queue = [] ∧
      ∃ accepted : List Nat,
        result = (if accepted.isEmpty then Option.none else some accepted) ∧
        accepted.Nodup ∧
        (∀ i ∈ accepted, bf.getD i false = true ∧
          s.pieces_in_flight.getD i false = false ∧
          s2.pieces_in_flight.getD i false = true) ∧
        (∀ j, j ∉ accepted →
          s2.pieces_in_flight.getD j false = s.pieces_in_flight.getD j false) := by
  obtain ⟨out, hout, hdrain, added, hql, hnda, hprops, hother⟩ :=
    selLoopFuel_spec s.piece_rarity bf s.priority_queue.length [] count
      s.priority_queue s.pieces_in_flight (le_refl _) (Nat.zero_le _)
      (fun i hi => absurd hi (List.not_mem_nil i)) hheap List.nodup_nil
  rw [List.nil_append] at hql
  refine ⟨(if out.1.isEmpty then Option.none else some out.1),
    { s with priority_queue := out.2.2.1, pieces_in_flight := out.2.2.2 },
    ?_, hdrain, added, ?_, hnda, hprops, hother⟩
  · simp only [PieceSelector.select_pieces_for_peer, hbf, selLoop, hout]
  · rw [hql]

/-- Witness for C6 (amended): one peer holding the single piece of a
heap with one fresh in-range entry; select accepts it. -/
theorem c6_select_spec_witness :
    ∃ result s2, (PieceSelector.select_pieces_for_peer
      ⟨[1], [(1, 0)], [false], [(0, [true])], [false]⟩ 0 5) = some (result, s2) ∧
      s2.priority_queue = [] ∧
      ∃ accepted : List Nat,
        result = (if accepted.isEmpty then Option.none else some accepted) ∧
        accepted.Nodup ∧
        (∀ i ∈ accepted, [true].getD i false = true ∧
          [false].getD i false = false ∧
          s2.pieces_in_flight.getD i false = true) ∧
        (∀ j, j ∉ accepted →
          s2.pieces_in_flight.getD j false = [false].getD j false) :=
  c6_select_spec ⟨[1], [(1, 0)], [false], [(0, [true])], [false]⟩ 0 5 [true] rfl
    (by decide)

/-- Helper: getD after set at the written index, any element type. -/
theorem getD_set_self_any {α : Type} (l : List α) (i : Nat) (a d : α)
    (h : i < l.length) : (l.set i a).getD i d = a := by
  rw [List.getD_eq_getElem?_getD, List.getElem?_set_self (by simpa using h)]
  rfl

/-- Helper: getD after set at a different index, any element type. -/
theorem getD_set_ne_any {α : Type} (l : List α) (i j : Nat) (a d : α)
    (h : j ≠ i) : (l.set i a).getD j d = l.getD j d := by
  rw [List.getD_eq_getElem?_getD, List.getElem?_set_ne (by omega),
    ← List.getD_eq_getElem?_getD]

/-- Helper: upqRarity preserves the length of the rarity vector. -/
theorem upqRarity_length (inc : Bool) (c : List Nat) (b h : List Bool) :
    (upqRarity inc c b h).length = c.length := by
  induction c generalizing b h with
  | nil => cases b <;> cases h <;> rfl
  | cons c0 cs ih =>
    cases b with
    | nil => rfl
    | cons b0 bs =>
      cases h with
      | nil => rfl
      | cons h0 hs => simp [upqRarity, ih]

/-- Helper: pointwise description of upqRarity — the counter at `i` is
adjusted exactly when all three vectors cover `i`, the peer has the
piece, and we lack it. -/
theorem upqRarity_getD (inc : Bool) (c : List Nat) (b h : List Bool) (i : Nat) :
    (upqRarity inc c b h).getD i 0 =
      if i < c.length ∧ i < b.length ∧ i < h.length ∧
          b.getD i false = true ∧ h.getD i false = false then
        (if inc then c.getD i 0 + 1 else c.getD i 0 - 1)
      else c.getD i 0 := by
  induction c generalizing b h i with
  | nil =>
    cases b <;> cases h <;> simp [upqRarity]
  | cons c0 cs ih =>
    cases b with
    | nil => simp [upqRarity]
    | cons b0 bs =>
      cases h with
      | nil => simp [upqRarity]
      | cons h0 hs =>
        cases i with
        | zero =>
          cases b0 <;> cases h0 <;> simp [upqRarity]
        | succ j =>
          simp only [upqRarity, List.getD_cons_succ, ih, List.length_cons,
            Nat.succ_lt_succ_iff]

/-- Helper: a true getD implies the index is in range. -/
theorem getD_true_lt (l : List Bool) (i : Nat) (h : l.getD i false = true) :
    i < l.length := by
  by_contra hge
  rw [List.getD_eq_getElem?_getD, List.getElem?_eq_none (by omega)] at h
  cases h

/-- Helper: the incremented case of upqRarity. -/
theorem upqRarity_getD_inc (c : List Nat) (b h : List Bool) (i : Nat)
    (h1 : i < c.length) (h2 : i < h.length)
    (hb : b.getD i false = true) (hh : h.getD i false = false) :
    (upqRarity true c b h).getD i 0 = c.getD i 0 + 1 := by
  rw [upqRarity_getD, if_pos ⟨h1, getD_true_lt b i hb, h2, hb, hh⟩, if_pos rfl]

/-- Helper: the decremented case of upqRarity. -/
theorem upqRarity_getD_dec (c : List Nat) (b h : List Bool) (i : Nat)
    (h1 : i < c.length) (h2 : i < h.length)
    (hb : b.getD i false = true) (hh : h.getD i false = false) :
    (upqRarity false c b h).getD i 0 = c.getD i 0 - 1 := by
  rw [upqRarity_getD, if_pos ⟨h1, getD_true_lt b i hb, h2, hb, hh⟩,
    if_neg Bool.false_ne_true]

/-- Helper: the unchanged case of upqRarity. -/
theorem upqRarity_getD_same (inc : Bool) (c : List Nat) (b h : List Bool) (i : Nat)
    (hn : ¬(i < c.length ∧ i < b.length ∧ i < h.length ∧
      b.getD i false = true ∧ h.getD i false = false)) :
    (upqRarity inc c b h).getD i 0 = c.getD i 0 := by
  rw [upqRarity_getD, if_neg hn]

/-- Helper: replacing a key that no entry carries is the identity. -/
theorem alReplace_eq_self (id : Nat) (v : List Bool)
    (l : List (Nat × List Bool)) (h : ∀ p ∈ l, p.1 ≠ id) :
    alReplace id v l = l := by
  induction l with
  | nil => rfl
  | cons q rest ih =>
    have hq : (q.1 == id) = false := by
      simp [h q (List.mem_cons_self q rest)]
    have hrest := ih (fun p hp => h p (List.mem_cons_of_mem q hp))
    show (if (q.1 == id) = true then (id, v) else q) :: alReplace id v rest = q :: rest
    rw [if_neg (by rw [hq]; exact Bool.false_ne_true), hrest]

/-- Helper: alReplace keeps the key sequence. -/
theorem alReplace_map_fst (id : Nat) (v : List Bool)
    (l : List (Nat × List Bool)) :
    (alReplace id v l).map Prod.fst = l.map Prod.fst := by
  induction l with
  | nil => rfl
  | cons q rest ih =>
    simp only [alReplace, List.map_cons] at ih ⊢
    rw [ih]
    by_cases hq : (q.1 == id) = true
    · have h1 : q.1 = id := by simpa using hq
      rw [if_pos hq]
      simp [h1]
    · rw [if_neg hq]

/-- Helper: a `none` lookup means no entry carries the key. -/
theorem lookup_none_keys (id : Nat) (l : List (Nat × List Bool))
    (h : l.lookup id = Option.none) : ∀ p ∈ l, p.1 ≠ id := by
  induction l with
  | nil => intro p hp; cases hp
  | cons q rest ih =>
    intro p hp
    simp only [List.lookup] at h
    rcases hq : (id == q.1) with _ | _
    · rw [hq] at h
      rcases List.mem_cons.mp hp with rfl | hp2
      · intro heq
        rw [heq] at hq
        simp at hq
      · exact ih h p hp2
    · rw [hq] at h
      cases h

/-- Helper: a successful lookup yields a member entry. -/
theorem lookup_some_mem (id : Nat) (bf : List Bool)
    (l : List (Nat × List Bool)) (h : l.lookup id = some bf) :
    (id, bf) ∈ l := by
  induction l with
  | nil => cases h
  | cons q rest ih =>
    simp only [List.lookup] at h
    rcases hq : (id == q.1) with _ | _
    · rw [hq] at h
      exact List.mem_cons_of_mem q (ih h)
    · rw [hq] at h
      have h1 : id = q.1 := by simpa using hq
      have h2 : q.2 = bf := by simpa using h
      have : q = (id, bf) := by
        cases q
        simp_all
      rw [← this]
      exact List.mem_cons_self q rest

/-- Helper: countP of an association list after replacing the value at a
key carried by exactly the looked-up entry (keys distinct). -/
theorem countP_alReplace (id : Nat) (v : List Bool)
    (l : List (Nat × List Bool)) (f : List Bool → Bool) (old : List Bool)
    (hnd : (l.map Prod.fst).Nodup) (hlk : l.lookup id = some old) :
    (alReplace id v l).countP (fun p => f p.2) + (if f old then 1 else 0) =
      l.countP (fun p => f p.2) + (if f v then 1 else 0) := by
  induction l with
  | nil => cases hlk
  | cons q rest ih =>
    simp only [List.lookup] at hlk
    simp only [List.map_cons, List.nodup_cons] at hnd
    rcases hq : (id == q.1) with _ | _
    · rw [hq] at hlk
      have hid : ¬(id = q.1) := by simpa using hq
      have hne : (q.1 == id) = false := by
        simp only [beq_eq_false_iff_ne, ne_eq]
        omega
      have hmap : alReplace id v (q :: rest) = q :: alReplace id v rest := by
        show (if (q.1 == id) = true then (id, v) else q) :: _ = _
        rw [if_neg (by rw [hne]; exact Bool.false_ne_true)]
        rfl
      rw [hmap, List.countP_cons, List.countP_cons]
      have := ih hnd.2 hlk
      omega
    · rw [hq] at hlk
      have h1 : id = q.1 := by simpa using hq
      have h2 : q.2 = old := by simpa using hlk
      have hq2 : (q.1 == id) = true := by simp [h1]
      have hrest : alReplace id v rest = rest := by
        apply alReplace_eq_self
        intro p hp heq
        apply hnd.1
        have hm : p.1 ∈ List.map Prod.fst rest := List.mem_map_of_mem Prod.fst hp
        rw [heq, h1] at hm
        exact hm
      have hmap : alReplace id v (q :: rest) = (id, v) :: rest := by
        show (if (q.1 == id) = true then (id, v) else q) :: alReplace id v rest
          = (id, v) :: rest
        rw [if_pos hq2, hrest]
      rw [hmap, List.countP_cons, List.countP_cons, ← h2]
      dsimp only
      omega

/-- Helper: countP of an association list after removing the key carried
by exactly the looked-up entry (keys distinct). -/
theorem countP_filter_ne (id : Nat) (l : List (Nat × List Bool))
    (f : List Bool → Bool) (old : List Bool)
    (hnd : (l.map Prod.fst).Nodup) (hlk : l.lookup id = some old) :
    (l.filter (fun p => p.1 != id)).countP (fun p => f p.2) +
      (if f old then 1 else 0) = l.countP (fun p => f p.2) := by
  induction l with
  | nil => cases hlk
  | cons q rest ih =>
    simp only [List.lookup] at hlk
    simp only [List.map_cons, List.nodup_cons] at hnd
    rcases hq : (id == q.1) with _ | _
    · rw [hq] at hlk
      have hid : ¬(id = q.1) := by simpa using hq
      have hne : (q.1 != id) = true := by
        simp only [bne_iff_ne, ne_eq]
        omega
      rw [List.filter_cons, if_pos hne, List.countP_cons, List.countP_cons]
      have := ih hnd.2 hlk
      omega
    · rw [hq] at hlk
      have h1 : id = q.1 := by simpa using hq
      have h2 : q.2 = old := by simpa using hlk
      have hq2 : (q.1 != id) = false := by simp [h1]
      have hrest : rest.filter (fun p => p.1 != id) = rest := by
        apply List.filter_eq_self.mpr
        intro p hp
        have hne2 : p.1 ≠ id := by
          intro heq
          apply hnd.1
          have hm : p.1 ∈ List.map Prod.fst rest := List.mem_map_of_mem Prod.fst hp
          rw [heq, h1] at hm
          exact hm
        simp [hne2]
      rw [List.filter_cons, if_neg (by rw [hq2]; exact Bool.false_ne_true), hrest,
        List.countP_cons, ← h2]

/-- Shorthand for the three facts preserved along good operation
sequences: distinct peer keys, equal bitfield and rarity lengths, and the
rarity formula itself. -/
def SelInv (s : PieceSelector) : Prop :=
  (s.peer_bitfields.map Prod.fst).Nodup ∧
  s.haveBf.length = s.piece_rarity.length ∧
  (∀ i, i < s.piece_rarity.length → s.piece_rarity.getD i 0 = rarityCount s i)

/-- Helper: add_peer preserves the rarity invariant. -/
theorem selStep_addPeer (s : PieceSelector) (id : Nat) (hinv : SelInv s) :
    SelInv (s.add_peer id) := by
  obtain ⟨hnd, hlen, hfor⟩ := hinv
  unfold PieceSelector.add_peer
  by_cases hlk : (s.peer_bitfields.lookup id).isSome
  · rw [if_pos hlk]
    exact ⟨hnd, hlen, hfor⟩
  · rw [if_neg hlk]
    have hnone : s.peer_bitfields.lookup id = Option.none := by
      rcases h : s.peer_bitfields.lookup id with _ | v
      · rfl
      · rw [h] at hlk
        simp at hlk
    have hkeys := lookup_none_keys id s.peer_bitfields hnone
    refine ⟨?_, hlen, ?_⟩
    · simp only [List.map_cons, List.nodup_cons]
      refine ⟨?_, hnd⟩
      intro hmem
      obtain ⟨p, hp, hpe⟩ := List.mem_map.mp hmem
      exact hkeys p hp hpe
    · intro i hi
      have := hfor i hi
      simp only [rarityCount, List.countP_cons] at this ⊢
      simpa using this

/-- Helper: rarityCount when we own the piece. -/
theorem rarityCount_have (s : PieceSelector) (i : Nat)
    (h : s.haveBf.getD i false = true) : rarityCount s i = 0 := by
  unfold rarityCount
  rw [if_pos h]

/-- Helper: rarityCount when we lack the piece. -/
theorem rarityCount_not_have (s : PieceSelector) (i : Nat)
    (h : s.haveBf.getD i false = false) :
    rarityCount s i = s.peer_bitfields.countP (fun p => p.2.getD i false) := by
  unfold rarityCount
  rw [if_neg (by rw [h]; exact Bool.false_ne_true)]

/-- Helper: a false Bool that is not true. -/
theorem bool_eq_false_of_ne_true (b : Bool) (h : ¬(b = true)) : b = false := by
  cases b
  · rfl
  · exact absurd rfl h

/-- Helper: remove_peer preserves the rarity invariant. -/
theorem selStep_removePeer (s : PieceSelector) (id : Nat) (hinv : SelInv s) :
    SelInv (s.remove_peer id) := by
  obtain ⟨hnd, hlen, hfor⟩ := hinv
  unfold PieceSelector.remove_peer
  rcases hlk : s.peer_bitfields.lookup id with _ | bf
  · exact ⟨hnd, hlen, hfor⟩
  · simp only [PieceSelector.update_prio_queue, SelInv]
    refine ⟨?_, ?_, ?_⟩
    · exact hnd.sublist ((List.filter_sublist _).map Prod.fst)
    · rw [upqRarity_length]
      exact hlen
    · intro i hi
      rw [upqRarity_length] at hi
      have hcnt := countP_filter_ne id s.peer_bitfields
        (fun b => b.getD i false) bf hnd hlk
      have hold := hfor i hi
      simp only [rarityCount] at hold ⊢
      rcases hbh : s.haveBf.getD i false with _ | _
      · simp only [hbh, Bool.false_eq_true, if_false] at hold
        rw [if_neg Bool.false_ne_true]
        by_cases hbf : bf.getD i false = true
        · rw [upqRarity_getD_dec s.piece_rarity bf s.haveBf i hi (by omega) hbf hbh]
          simp only [hbf, if_true] at hcnt
          omega
        · have hbf2 := bool_eq_false_of_ne_true _ hbf
          rw [upqRarity_getD_same false s.piece_rarity bf s.haveBf i
            (by intro hc; exact hbf hc.2.2.2.1)]
          simp only [hbf2, Bool.false_eq_true, if_false] at hcnt
          omega
      · simp only [hbh, if_true] at hold
        rw [if_pos rfl]
        rw [upqRarity_getD_same false s.piece_rarity bf s.haveBf i
          (by intro hc; rw [hbh] at hc; exact absurd hc.2.2.2.2 (by simp))]
        exact hold

/-- Helper: add_bitfield preserves the rarity invariant when the peer's
previously recorded bitfield was all-false on the rarity range. -/
theorem selStep_setBitfield (s : PieceSelector) (id : Nat) (bfnew : List Bool)
    (hinv : SelInv s)
    (hgood : ∀ old, s.peer_bitfields.lookup id = some old →
      ∀ i, i < s.piece_rarity.length → old.getD i false = false) :
    SelInv (s.add_bitfield id bfnew) := by
  obtain ⟨hnd, hlen, hfor⟩ := hinv
  unfold PieceSelector.add_bitfield
  by_cases hlk : (s.peer_bitfields.lookup id).isSome
  · rw [if_pos hlk]
    rcases hlk2 : s.peer_bitfields.lookup id with _ | old
    · rw [hlk2] at hlk
      simp at hlk
    simp only [PieceSelector.update_prio_queue, SelInv]
    refine ⟨?_, ?_, ?_⟩
    · rw [alReplace_map_fst]
      exact hnd
    · rw [upqRarity_length]
      exact hlen
    · intro i hi
      rw [upqRarity_length] at hi
      have hcnt := countP_alReplace id bfnew s.peer_bitfields
        (fun b => b.getD i false) old hnd hlk2
      have holdf := hgood old hlk2 i hi
      have hold := hfor i hi
      simp only [holdf, Bool.false_eq_true, if_false] at hcnt
      simp only [rarityCount] at hold ⊢
      rcases hbh : s.haveBf.getD i false with _ | _
      · simp only [hbh, Bool.false_eq_true, if_false] at hold
        rw [if_neg Bool.false_ne_true]
        by_cases hbf : bfnew.getD i false = true
        · rw [upqRarity_getD_inc s.piece_rarity bfnew s.haveBf i hi (by omega) hbf hbh]
          simp only [hbf, if_true] at hcnt
          omega
        · have hbf2 := bool_eq_false_of_ne_true _ hbf
          rw [upqRarity_getD_same true s.piece_rarity bfnew s.haveBf i
            (by intro hc; exact hbf hc.2.2.2.1)]
          simp only [hbf2, Bool.false_eq_true, if_false] at hcnt
          omega
      · simp only [hbh, if_true] at hold
        rw [if_pos rfl]
        rw [upqRarity_getD_same true s.piece_rarity bfnew s.haveBf i
          (by intro hc; rw [hbh] at hc; exact absurd hc.2.2.2.2 (by simp))]
        exact hold
  · rw [if_neg hlk]
    exact ⟨hnd, hlen, hfor⟩

/-- Helper: the fields of update_have that the invariant reads, in the
in-range case. -/
theorem update_have_fields (s : PieceSelector) (id i0 : Nat) (bf : List Bool)
    (hlk : s.peer_bitfields.lookup id = some bf)
    (hrange : (decide (i0 < bf.length) && decide (i0 < s.piece_rarity.length)) = true) :
    (s.update_have id i0).peer_bitfields
        = alReplace id (bf.set i0 true) s.peer_bitfields ∧
    (s.update_have id i0).haveBf = s.haveBf ∧
    (s.update_have id i0).piece_rarity
        = s.piece_rarity.set i0 (s.piece_rarity.getD i0 0 + 1) := by
  simp only [PieceSelector.update_have, hlk]
  rw [if_pos hrange]
  split <;> exact ⟨rfl, rfl, rfl⟩

/-- Helper: update_have leaves the state unchanged when the peer is
unknown or the index is out of range. -/
theorem update_have_noop (s : PieceSelector) (id i0 : Nat)
    (h : ∀ bf, s.peer_bitfields.lookup id = some bf →
      ¬((decide (i0 < bf.length) && decide (i0 < s.piece_rarity.length)) = true)) :
    s.update_have id i0 = s := by
  unfold PieceSelector.update_have
  rcases hlk : s.peer_bitfields.lookup id with _ | bf
  · rfl
  · simp only []
    rw [if_neg (h bf hlk)]

/-- Helper: update_have preserves the rarity invariant when the peer's
recorded bit was still unset and we do not own the piece. -/
theorem selStep_noteHave (s : PieceSelector) (id : Nat) (i0 : Nat)
    (hinv : SelInv s)
    (hgood : ∀ bf, s.peer_bitfields.lookup id = some bf →
      i0 < bf.length → i0 < s.piece_rarity.length →
      bf.getD i0 false = false ∧ s.haveBf.getD i0 false = false) :
    SelInv (s.update_have id i0) := by
  obtain ⟨hnd, hlen, hfor⟩ := hinv
  rcases hlk : s.peer_bitfields.lookup id with _ | bf
  · rw [update_have_noop s id i0 (by intro bf hbf; rw [hlk] at hbf; cases hbf)]
    exact ⟨hnd, hlen, hfor⟩
  · by_cases hrange :
        (decide (i0 < bf.length) && decide (i0 < s.piece_rarity.length)) = true
    · obtain ⟨hf1, hf2, hf3⟩ := update_have_fields s id i0 bf hlk hrange
      simp only [Bool.and_eq_true, decide_eq_true_eq] at hrange
      obtain ⟨hr1, hr2⟩ := hrange
      obtain ⟨hg1, hg2⟩ := hgood bf hlk hr1 hr2
      refine ⟨?_, ?_, ?_⟩
      · rw [hf1, alReplace_map_fst]
        exact hnd
      · rw [hf2, hf3, List.length_set]
        exact hlen
      · intro j hj
        rw [hf3] at hj ⊢
        rw [List.length_set] at hj
        have hcnt := countP_alReplace id (bf.set i0 true) s.peer_bitfields
          (fun b => b.getD j false) bf hnd hlk
        have hold := hfor j hj
        simp only [rarityCount, hf1, hf2] at hold ⊢
        rcases eq_or_ne j i0 with rfl | hne
        · rw [getD_set_self_any s.piece_rarity j _ 0 hj]
          simp only [hg1, Bool.false_eq_true, if_false,
            getD_set_self_bool bf j true hr1, if_true] at hcnt
          simp only [hg2, Bool.false_eq_true, if_false] at hold ⊢
          omega
        · rw [getD_set_ne_any s.piece_rarity i0 j _ 0 hne]
          simp only [getD_set_ne_bool bf i0 j true hne] at hcnt
          rcases hbh : s.haveBf.getD j false with _ | _
          · simp only [hbh, Bool.false_eq_true, if_false] at hold ⊢
            omega
          · simp only [hbh, if_true] at hold ⊢
            exact hold
    · rw [update_have_noop s id i0
        (by intro bf2 hbf2; rw [hlk] at hbf2; cases hbf2; exact hrange)]
      exact ⟨hnd, hlen, hfor⟩

/-- Helper: one good operation preserves the invariant. -/
theorem selStep_preserves (s : PieceSelector) (op : SelOp)
    (hinv : SelInv s) (hgood : goodOp s op = true) : SelInv (applySelOp s op) := by
  cases op with
  | addPeer id => exact selStep_addPeer s id hinv
  | removePeer id => exact selStep_removePeer s id hinv
  | setBitfield id bf =>
    refine selStep_setBitfield s id bf hinv ?_
    intro old hlk i hi
    simp only [goodOp, hlk] at hgood
    rw [List.all_eq_true] at hgood
    have := hgood i (List.mem_range.mpr hi)
    simpa using this
  | noteHave id i0 =>
    refine selStep_noteHave s id i0 hinv ?_
    intro bf hlk h1 h2
    simp only [goodOp, hlk, Bool.or_eq_true, Bool.not_eq_true',
      Bool.and_eq_true, decide_eq_true_eq, beq_iff_eq] at hgood
    rcases hgood with hgood | hgood
    · rw [Bool.and_eq_false_iff] at hgood
      rcases hgood with hg | hg <;> simp only [decide_eq_false_iff_not] at hg
      · exact absurd h1 hg
      · exact absurd h2 hg
    · exact hgood

/-- Helper: a good sequence preserves the invariant. -/
theorem selSeq_preserves (ops : List SelOp) : ∀ s : PieceSelector,
    SelInv s → goodSeq s ops = true → SelInv (applySelOps s ops) := by
  induction ops with
  | nil => exact fun s h _ => h
  | cons op rest ih =>
    intro s h hg
    simp only [goodSeq, Bool.and_eq_true] at hg
    exact ih (applySelOp s op) (selStep_preserves s op h hg.1) hg.2

/-- Helper: a fresh selector satisfies the invariant. -/
theorem selInv_new (haveBf : List Bool) : SelInv (PieceSelector.new haveBf) := by
  refine ⟨List.nodup_nil, by simp [PieceSelector.new], ?_⟩
  intro i hi
  have h0 : rarityCount (PieceSelector.new haveBf) i = 0 := by
    unfold rarityCount PieceSelector.new
    split <;> rfl
  rw [h0]
  simp only [PieceSelector.new, List.length_replicate] at hi
  simp [PieceSelector.new, List.getD_eq_getElem?_getD, List.getElem?_replicate, hi]

/-- Helper: the Bool-level invariant check, unfolded. -/
theorem rarityOk_iff (s : PieceSelector) :
    rarityOk s = true ↔
      ∀ i, i < s.piece_rarity.length →
        s.piece_rarity.getD i 0 = rarityCount s i := by
  simp [rarityOk, List.all_eq_true, List.mem_range]

/-- Claim C5 (amended): starting from a fresh selector, after any
sequence of add_peer, remove_peer, first-time set_bitfield, and HAVEs for
pieces the peer's recorded bitfield did not yet carry and that we do not
own, the rarity counter equals the number of known peers whose recorded
bitfield has the piece and for which our bitfield lacks it. The claim as
stated is false: update_have increments the counter unconditionally
whenever the peer's recorded bitfield covers the index, so a HAVE for a
piece we already own, or a repeated HAVE from the same peer, pushes the
counter beyond that definition (see the counterexample). -/
theorem c5_rarity_formula (haveBf : List Bool) (ops : List SelOp)
    (hgood : goodSeq (PieceSelector.new haveBf) ops = true) :
    rarityOk (applySelOps (PieceSelector.new haveBf) ops) = true := by
  have h := selSeq_preserves ops (PieceSelector.new haveBf) (selInv_new haveBf) hgood
  exact (rarityOk_iff _).mpr h.2.2

/-- Witness for C5 (amended): a two-piece swarm with one peer whose
bitfield is recorded once, a fresh HAVE, and a departure. -/
theorem c5_rarity_formula_witness :
    rarityOk (applySelOps (PieceSelector.new [false, false])
      [SelOp.addPeer 3, SelOp.setBitfield 3 [true, false], SelOp.noteHave 3 1,
       SelOp.removePeer 3]) = true :=
  c5_rarity_formula [false, false]
    [SelOp.addPeer 3, SelOp.setBitfield 3 [true, false], SelOp.noteHave 3 1,
     SelOp.removePeer 3] (by decide)

/-- Witness for C10 at concrete short inputs. -/
theorem c10_payload_decoders_not_total_witness :
    ResponsePiecePayload.from_be_bytes [0, 0, 0, 0, 0, 0, 0] = Option.none ∧
    HavePayload.from_be_bytes [0, 0, 0] = Option.none :=
  ⟨c10_payload_decoders_not_total.1 _ (by decide),
   c10_payload_decoders_not_total.2 _ (by decide)⟩

end BT
